import Mathlib

set_option autoImplicit false

/-!
Verification model of the memory-engine core (`app/` package): the fact data
model, the extraction worker's normalize / dedup / supersession pipeline
(`app/worker/tasks.py`), the consolidation worker's clustering and merge, the
optimization worker's index guard, the recall engine (`app/api/recall.py`),
the ingestion service (`app/services/ingestion.py`), the request validation
schema (`app/schemas/__init__.py`) and the job-queue tags (`app/worker/queue.py`
versus `WorkerSettings.functions`).

Conventions of the shallow embedding:
* Python `str` is Lean `String`; the AsCII `str.lower` / `str.strip` /
  `str.startswith` / substring tests are re-implemented on `String.data` so
  that they compute by kernel reduction.
* Python `float` confidences, similarity scores and cosine thresholds are
  modelled as exact rationals `ℚ`.
* Timestamps (`datetime`) are integers (`Int`), measured in days so that
  `timedelta(days=d)` is the integer `d`.
* The external `rapidfuzz.fuzz.WRatio` / `token_set_ratio` similarity and the
  pgvector cosine distance of a query embedding are parameters of the
  pipeline functions (`sim`, `dist`): the repository code only compares their
  results against thresholds.
* Database rows owned by a worker run are a `List MemoryFact`; SQLAlchemy
  object mutation is update-by-id on that list.
-/

namespace MemEngine

/-- ASCII model of Python `str.lower`, acting on the character data. -/
def pyLower (s : String) : String := ⟨s.data.map Char.toLower⟩

/-- Model of Python `str.startswith`. -/
def pyStartsWith (s p : String) : Bool := p.data.isPrefixOf s.data

/-- Whitespace test used by the model of Python `str.strip`. -/
def isPySpace (c : Char) : Bool := c = ' ' || c = '\t' || c = '\n' || c = '\r'

/-- Model of Python `str.strip()`: drop whitespace on both ends. -/
def pyStrip (s : String) : String :=
  ⟨((s.data.dropWhile isPySpace).reverse.dropWhile isPySpace).reverse⟩

/-- Helper for substring search on character lists. -/
def containsSeq (pat : List Char) : List Char → Bool
  | [] => pat.isEmpty
  | c :: rest => pat.isPrefixOf (c :: rest) || containsSeq pat rest

/-- Model of Python `pat in s` substring membership. -/
def pyContains (s pat : String) : Bool := containsSeq pat.data s.data

/-- Model of Python `text[0].isupper()` guarded by `text` being non-empty
(an empty `text` is falsy, so the Python conjunction is `false`). -/
def firstIsUpper (s : String) : Bool :=
  match s.data with
  | [] => false
  | c :: _ => c.isUpper

/-- `FactCategory` enum of `app/models/__init__.py`. -/
inductive FactCategory where
  | user_preference
  | biographical
  | work_context
  | relationship
  | learning
deriving Repr, DecidableEq

/-- All members of the `FactCategory` enum, in declaration order (Python
iterates an `Enum` class in that order). -/
def allFactCategories : List FactCategory :=
  [.user_preference, .biographical, .work_context, .relationship, .learning]

/-- `TemporalState` enum of `app/models/__init__.py`. -/
inductive TemporalState where
  | current
  | past
  | future
  | recurring
deriving Repr, DecidableEq

/-- One row of the `memory_facts` table (`MemoryFact` in
`app/models/__init__.py`).  Fields needed by the worker and recall code. -/
structure MemoryFact where
  id : Nat
  user_id : Nat
  category : FactCategory
  content : String
  confidence_score : ℚ
  slot_hint : Option String
  temporal_state : TemporalState
  is_essential : Bool
  source_message_id : Option Nat
  superseded_by : Option Nat
  expires_at : Option Int
  created_at : Int
  last_refreshed_at : Int
  embedding : Option (List ℚ)
deriving Repr, DecidableEq

instance : Inhabited MemoryFact :=
  ⟨{ id := 0, user_id := 0, category := .user_preference, content := "",
     confidence_score := 0, slot_hint := none, temporal_state := .current,
     is_essential := false, source_message_id := none, superseded_by := none,
     expires_at := none, created_at := 0, last_refreshed_at := 0,
     embedding := none }⟩

/-- One structured fact extracted by the LLM (`ExtractedFact` in
`app/worker/tasks.py`); also reused for the staged (normalized) pending
facts, mirroring the in-place `extracted.content = normalize_fact(...)`. -/
structure ExtractedFact where
  category : FactCategory
  slot_hint : Option String
  temporal_state : TemporalState
  content : String
  confidence : ℚ
deriving Repr, DecidableEq

/-- `MIN_CONFIDENCE_TO_SAVE` in `app/worker/tasks.py`. -/
def MIN_CONFIDENCE_TO_SAVE : ℚ := 0.5

/-- `_is_fuzzy_duplicate` of `app/worker/tasks.py`, parameterized by the
external `rapidfuzz.fuzz.WRatio` similarity `sim` (scale 0–100). -/
def _is_fuzzy_duplicate (sim : String → String → ℚ) (existing_texts : List String)
    (candidate : String) (threshold : ℚ := 75) : Bool :=
  existing_texts.any (fun existing => decide (sim existing candidate ≥ threshold))

/-- The `temporal_prefixes` tuple inside `normalize_fact`. -/
def temporal_prefixes : List String :=
  ["previously", "used to", "formerly", "was a", "were a",
   "planning to", "will", "going to", "might", "may",
   "usually", "often", "sometimes", "every", "regularly"]

/-- `normalize_fact` of `app/worker/tasks.py`. -/
def normalize_fact (content : String) (category : FactCategory) : String :=
  let text := pyStrip content
  let lower := pyLower text
  if temporal_prefixes.any (fun p => pyStartsWith lower p) then text
  else if category = FactCategory.biographical then
    if ["lives in", "born in", "from", "age", "lived in"].any (fun p => pyStartsWith lower p) then
      text
    else if ["in ", "at "].any (fun p => pyStartsWith lower p) then
      "Lives " ++ text
    else if pyContains lower " in " then
      text
    else
      "Lives in " ++ text
  else if category = FactCategory.work_context then
    if ["works", "is a", "is an", "employed", "worked"].any (fun p => pyStartsWith lower p) then
      text
    else if firstIsUpper text then
      "Works at " ++ text
    else
      "Is a " ++ text
  else text

/-- `_same_slot` of `app/worker/tasks.py`. -/
def _same_slot (fact : MemoryFact) (new_category : FactCategory)
    (new_slot : Option String) : Bool :=
  decide (fact.category = new_category ∧
    (fact.slot_hint = none ∨ new_slot = none ∨ fact.slot_hint = new_slot))

/-- `_supersedable_category` of `app/worker/tasks.py`. -/
def _supersedable_category (category : FactCategory) : Bool :=
  decide (category = FactCategory.biographical ∨
    category = FactCategory.relationship ∨
    category = FactCategory.work_context)

/-- `_should_supersede` of `app/worker/tasks.py`. -/
def _should_supersede (existing : MemoryFact) (incoming_conf : ℚ) : Bool :=
  if existing.superseded_by ≠ none then true
  else decide (incoming_conf ≥ existing.confidence_score - 0.15)

/-- Update every row carrying a given id (ids are unique in well-formed
states), modelling in-place mutation of a loaded SQLAlchemy object. -/
def updateById (facts : List MemoryFact) (fid : Nat) (g : MemoryFact → MemoryFact) :
    List MemoryFact :=
  facts.map (fun f => if f.id = fid then g f else f)

/-- Look a row up by id. -/
def lookupId (facts : List MemoryFact) (fid : Nat) : Option MemoryFact :=
  facts.find? (fun f => f.id = fid)

/-- The `existing_facts` query of `extract_facts_task`: all non-expired rows
of the user (the per-user restriction is implicit: the state holds one
user's rows). -/
def existingSnapshot (facts : List MemoryFact) : List MemoryFact :=
  facts.filter (fun f => decide (f.expires_at = none))

/-- The refresh applied to `duplicate_match` in `extract_facts_task`. -/
def refreshFact (now : Int) (conf : ℚ) (f : MemoryFact) : MemoryFact :=
  { f with last_refreshed_at := now,
           confidence_score := max f.confidence_score conf }

/-- Accumulator of the candidate loop of `extract_facts_task`: the evolving
rows, the `pending_facts` buffer and the `supersede_queue` (by row id). -/
structure StageAcc where
  facts : List MemoryFact
  pending : List ExtractedFact
  queue : List Nat
deriving Repr

/-- One iteration of the candidate loop of `extract_facts_task` (steps 4–7 of
the spec): drop low confidence, normalize, refresh a fuzzy duplicate, or
stage the fact and queue same-slot supersession targets. -/
def stageStep (sim : String → String → ℚ) (now : Int) (snap : List MemoryFact)
    (acc : StageAcc) (cand : ExtractedFact) : StageAcc :=
  if cand.confidence < MIN_CONFIDENCE_TO_SAVE then acc
  else
    let content := normalize_fact cand.content cand.category
    match snap.find? (fun f => _is_fuzzy_duplicate sim [f.content] content) with
    | some dup =>
        { acc with facts := updateById acc.facts dup.id (refreshFact now cand.confidence) }
    | none =>
        let staged : ExtractedFact :=
          { cand with content := content }
        { facts := acc.facts,
          pending := acc.pending ++ [staged],
          queue := acc.queue ++
            (if _supersedable_category cand.category then
              (snap.filter (fun f => _same_slot f cand.category cand.slot_hint)).map
                (fun f => f.id)
            else []) }

/-- The whole candidate loop of `extract_facts_task`: `existing_facts` is
loaded once before the loop and its immutable columns are read through the
snapshot, while refreshes mutate the evolving rows. -/
def stageCandidates (sim : String → String → ℚ) (now : Int)
    (facts : List MemoryFact) (cands : List ExtractedFact) : StageAcc :=
  cands.foldl (stageStep sim now (existingSnapshot facts)) ⟨facts, [], []⟩

/-- Materialize the `pending_facts` as rows, mirroring
`for fact, embedding in zip(pending_facts, embeddings)`: the zip truncates
at the shorter list (the embed gateway returns one vector per text, and the
failure path substitutes `[None] * len(pending_facts)`, so the lists match
in every reachable run); ids are assigned at flush, `source_message_id` is
the newest window message, timestamps default to commit time. -/
def buildNewFacts (nextId : Nat) (now : Int) (srcMsg : Option Nat) :
    List (Option (List ℚ)) → List ExtractedFact → List MemoryFact
  | _, [] => []
  | [], _ :: _ => []
  | e :: es, p :: ps =>
    { id := nextId, user_id := 0, category := p.category, content := p.content,
      confidence_score := p.confidence, slot_hint := p.slot_hint,
      temporal_state := p.temporal_state, is_essential := false,
      source_message_id := srcMsg, superseded_by := none, expires_at := none,
      created_at := now, last_refreshed_at := now, embedding := e } ::
      buildNewFacts (nextId + 1) now srcMsg es ps

/-- One iteration of the supersession loop of `extract_facts_task`: re-read
the queued row, find the first pending row in the same slot (`newest`), and
supersede when `_should_supersede` allows. -/
def supersedeStep (newFacts : List MemoryFact) (fs : List MemoryFact) (qid : Nat) :
    List MemoryFact :=
  match lookupId fs qid with
  | none => fs
  | some fact =>
    match newFacts.find? (fun nf => _same_slot fact nf.category nf.slot_hint) with
    | none => fs
    | some newest =>
      if _should_supersede fact newest.confidence_score then
        updateById fs fact.id (fun f => { f with superseded_by := some newest.id })
      else fs

/-- Worker-side state of one user's `memory_facts` rows plus the id
allocator. -/
structure ExtractState where
  facts : List MemoryFact
  nextId : Nat
deriving Repr

/-- The database-writing part of `extract_facts_task` (steps 3–9 of the
extraction algorithm) for one job run: candidate loop, insert of pending
rows with embeddings, then the supersession queue, all committed together. -/
def extract_facts_commit (sim : String → String → ℚ) (now : Int)
    (st : ExtractState) (cands : List ExtractedFact)
    (embeds : List (Option (List ℚ))) (srcMsg : Option Nat) : ExtractState :=
  let acc := stageCandidates sim now st.facts cands
  let newFacts := buildNewFacts st.nextId now srcMsg embeds acc.pending
  let fs2 := acc.facts ++ newFacts
  let fs3 := acc.queue.foldl (supersedeStep newFacts) fs2
  ⟨fs3, st.nextId + acc.pending.length⟩

/-! ### Consolidation worker (`consolidate_user_memory` and helpers) -/

/-- Stable insertion of `a` after every element `b` with `leB b a`; folding it
over a list is a stable sort, the model of Python's stable `sorted` /
`list.sort` and of the deterministic `ORDER BY` read order. -/
def insSorted {α : Type} (leB : α → α → Bool) (a : α) : List α → List α
  | [] => [a]
  | b :: bs => if leB b a then b :: insSorted leB a bs else a :: b :: bs

/-- Stable sort with respect to the total preorder `leB` (`leB b a` meaning
`b` may stay before `a`). -/
def stableSort {α : Type} (leB : α → α → Bool) (l : List α) : List α :=
  l.foldl (fun acc a => insSorted leB a acc) []

/-- `SEMANTIC_DUPLICATE_THRESHOLD` in `app/worker/tasks.py`. -/
def SEMANTIC_DUPLICATE_THRESHOLD : ℚ := 0.92

/-- Fuel-bounded root lookup in the union-find parent array of
`_find_semantic_duplicate_clusters`; the source's recursive `find` relies on
the forest shape of `parent`, under which `parent.length` fuel reaches the
root. -/
def ufFind (parent : List Nat) : Nat → Nat → Nat
  | 0, x => x
  | fuel + 1, x =>
    let p := parent.getD x x
    if p = x then x else ufFind parent fuel p

/-- The `union` closure of `_find_semantic_duplicate_clusters`. -/
def ufUnion (parent : List Nat) (x y : Nat) : List Nat :=
  let px := ufFind parent parent.length x
  let py := ufFind parent parent.length y
  if px ≠ py then parent.set px py else parent

/-- The ordered pair scan `for i in range(n): for j in range(i+1, n)`. -/
def pairScan (n : Nat) : List (Nat × Nat) :=
  (List.range n).flatMap (fun i => ((List.range n).drop (i + 1)).map (fun j => (i, j)))

/-- Whether the pair scan unions indices `i` and `j`: same category and
cosine similarity at least the threshold (`cos` is the external float cosine
of `_cosine_similarity`, modelled exactly as a rational-valued parameter). -/
def pairSimilar (cos : List ℚ → List ℚ → ℚ) (threshold : ℚ)
    (fwe : List MemoryFact) (i j : Nat) : Bool :=
  let fi := fwe.getD i default
  let fj := fwe.getD j default
  decide (fi.category = fj.category) &&
    decide (cos (fi.embedding.getD []) (fj.embedding.getD []) ≥ threshold)

/-- `_find_semantic_duplicate_clusters` of `app/worker/tasks.py`: union-find
over same-category pairs with cosine similarity at least the threshold,
then the clusters of size at least 2 grouped by root (in first-seen root
order, like the Python dict). -/
def _find_semantic_duplicate_clusters (cos : List ℚ → List ℚ → ℚ)
    (facts : List MemoryFact) (threshold : ℚ := SEMANTIC_DUPLICATE_THRESHOLD) :
    List (List MemoryFact) :=
  let fwe := facts.filter (fun f => decide (f.embedding ≠ none))
  if fwe.length < 2 then []
  else
    let n := fwe.length
    let parent := (pairScan n).foldl
      (fun par ij =>
        if pairSimilar cos threshold fwe ij.1 ij.2 then ufUnion par ij.1 ij.2 else par)
      (List.range n)
    let root := fun i => ufFind parent n i
    let rootOrder := (List.range n).foldl
      (fun acc i => if acc.contains (root i) then acc else acc ++ [root i]) []
    let clusters := rootOrder.map
      (fun r => ((List.range n).filter (fun i => root i = r)).map (fun i => fwe.getD i default))
    clusters.filter (fun cluster => decide (cluster.length ≥ 2))

/-- The union-find parent array of `_find_semantic_duplicate_clusters` after
the pair scan, as a standalone view of the `parent` local. -/
def clusterParent (cos : List ℚ → List ℚ → ℚ) (threshold : ℚ)
    (fwe : List MemoryFact) : List Nat :=
  (pairScan fwe.length).foldl
    (fun par ij =>
      if pairSimilar cos threshold fwe ij.1 ij.2 then ufUnion par ij.1 ij.2 else par)
    (List.range fwe.length)

/-- The root function of `_find_semantic_duplicate_clusters` over that
parent array. -/
def clusterRoot (cos : List ℚ → List ℚ → ℚ) (threshold : ℚ)
    (fwe : List MemoryFact) (i : Nat) : Nat :=
  ufFind (clusterParent cos threshold fwe) fwe.length i

/-- The first-seen order of cluster roots (the Python dict preserves
insertion order). -/
def rootOrderOf (root : Nat → Nat) (n : Nat) : List Nat :=
  (List.range n).foldl
    (fun acc i => if acc.contains (root i) then acc else acc ++ [root i]) []

/-- The clusters grouped by root, one per root in first-seen order. -/
def clustersOf (fwe : List MemoryFact) (root : Nat → Nat) : List (List MemoryFact) :=
  (rootOrderOf root fwe.length).map
    (fun r => ((List.range fwe.length).filter (fun i => root i = r)).map
      (fun i => fwe.getD i default))

/-- The descending sort key of `_merge_duplicate_cluster`:
`(is_essential, confidence_score, created_at)` with `reverse=True`; `keyGE a b`
says `a`'s key is at least `b`'s in that lexicographic order. -/
def keyGE (a b : MemoryFact) : Bool :=
  if a.is_essential ≠ b.is_essential then a.is_essential
  else if a.confidence_score ≠ b.confidence_score then
    decide (b.confidence_score < a.confidence_score)
  else decide (b.created_at ≤ a.created_at)

/-- The sorted cluster of `_merge_duplicate_cluster` (stable descending sort
by the key above, like Python `sorted(..., reverse=True)`). -/
def sortCluster (cluster : List MemoryFact) : List MemoryFact :=
  stableSort keyGE cluster

/-- One mutation of the merge loop of `_merge_duplicate_cluster`: re-read
the member from the state (modelling the object mutation) and supersede it
by the winner when still active. -/
def mergeStep (winner : MemoryFact) (acc : List MemoryFact) (mem : MemoryFact) :
    List MemoryFact :=
  match lookupId acc mem.id with
  | none => acc
  | some cur =>
    if cur.superseded_by = none then
      updateById acc mem.id (fun f => { f with superseded_by := some winner.id })
    else acc

/-- `_merge_duplicate_cluster` of `app/worker/tasks.py` applied to the state:
the head of the sorted cluster wins, every other member still active is
superseded by it. -/
def _merge_duplicate_cluster (fs : List MemoryFact) (cluster : List MemoryFact) :
    List MemoryFact :=
  match sortCluster cluster with
  | [] => fs
  | winner :: rest => rest.foldl (mergeStep winner) fs

/-- The semantic-merge phase of `consolidate_user_memory`: compute the
clusters of the loaded active facts and merge them one by one. -/
def consolidateMerge (cos : List ℚ → List ℚ → ℚ) (allFacts : List MemoryFact) :
    List MemoryFact :=
  (_find_semantic_duplicate_clusters cos allFacts).foldl _merge_duplicate_cluster allFacts

/-! ### Optimization worker (`optimize_user_memory`) -/

/-- The `fact.is_essential = True` mutation of `optimize_user_memory`. -/
def markEssential (f : MemoryFact) : MemoryFact := { f with is_essential := true }

/-- One iteration of the update loop of `optimize_user_memory`: mark the
fact at the index essential only when the index is inside the loaded batch
(`if 0 <= index < len(facts)`) and count the promotion. -/
def essentialStep (acc : List MemoryFact × Nat) (index : Int) :
    List MemoryFact × Nat :=
  if 0 ≤ index ∧ index < (acc.1.length : Int) then
    (List.modify markEssential index.toNat acc.1, acc.2 + 1)
  else acc

/-- The update loop of `optimize_user_memory` over the indices returned by
the LLM; the second component is `promoted_count`. -/
def applyEssentialIndices (facts : List MemoryFact) (idxs : List Int) :
    List MemoryFact × Nat :=
  idxs.foldl essentialStep (facts, 0)

/-! ### Recall engine (`app/api/recall.py`) -/

/-- `MIN_FUZZY_SIMILARITY` in `app/api/recall.py`. -/
def MIN_FUZZY_SIMILARITY : ℚ := 30

/-- `MIN_VECTOR_DISTANCE` in `app/api/recall.py`. -/
def MIN_VECTOR_DISTANCE : ℚ := 0.75

/-- `HIGH_CONFIDENCE_FALLBACK` in `app/api/recall.py`. -/
def HIGH_CONFIDENCE_FALLBACK : ℚ := 0.7

/-- `_fuzzy_score` of `app/api/recall.py`; `sim` is the external
`rapidfuzz.fuzz.token_set_ratio` (scale 0–100). -/
def _fuzzy_score (sim : String → String → ℚ) (query content : String)
    (confidence : ℚ) : ℚ × ℚ :=
  let similarity := sim query content
  ((similarity * 0.7) + (confidence * 30), similarity)

/-- The `INTENT_HINTS` keyword map of `app/api/recall.py`. -/
def INTENT_HINTS : List (String × List FactCategory) :=
  [("where", [.biographical]), ("live", [.biographical]), ("lives", [.biographical]),
   ("living", [.biographical]), ("location", [.biographical]), ("city", [.biographical]),
   ("move", [.biographical]), ("moved", [.biographical]),
   ("job", [.work_context]), ("jobs", [.work_context]), ("profession", [.work_context]),
   ("work", [.work_context]), ("working", [.work_context]), ("role", [.work_context]),
   ("employer", [.work_context]), ("company", [.work_context]), ("companies", [.work_context]),
   ("like", [.user_preference]), ("likes", [.user_preference]), ("love", [.user_preference]),
   ("loves", [.user_preference]), ("enjoy", [.user_preference]), ("enjoys", [.user_preference]),
   ("hobby", [.user_preference]), ("hobbies", [.user_preference]), ("prefer", [.user_preference]),
   ("prefers", [.user_preference]), ("preference", [.user_preference]),
   ("preferences", [.user_preference]), ("favorite", [.user_preference]),
   ("favourites", [.user_preference]),
   ("learning", [.learning, .user_preference]), ("studying", [.learning, .user_preference]),
   ("study", [.learning, .user_preference]), ("course", [.learning]), ("courses", [.learning]),
   ("class", [.learning]),
   ("girlfriend", [.relationship]), ("boyfriend", [.relationship]), ("spouse", [.relationship]),
   ("partner", [.relationship]), ("wife", [.relationship]), ("husband", [.relationship]),
   ("friend", [.relationship]), ("friends", [.relationship])]

/-- Word characters of the `\b\w+\b` tokenizer of `_hint_categories`. -/
def isWordChar (c : Char) : Bool := c.isAlphanum || c = '_'

/-- Split a character list into maximal word-character runs
(the `re.findall` tokenization of `_hint_categories`). -/
def wordRuns : List Char → List (List Char)
  | [] => []
  | c :: rest =>
    if isWordChar c then
      match wordRuns rest with
      | [] => [[c]]
      | run :: runs =>
        match rest with
        | [] => [[c]]
        | d :: _ => if isWordChar d then (c :: run) :: runs else [c] :: run :: runs
    else wordRuns rest

/-- Union a hint set into an accumulator preserving first-seen order
(Python uses a `set`; only membership and emptiness are observed). -/
def hintUnion (acc : List FactCategory) (extra : List FactCategory) : List FactCategory :=
  extra.foldl (fun hs c => if hs.contains c then hs else hs ++ [c]) acc

/-- `_hint_categories` of `app/api/recall.py`. -/
def _hint_categories (query : String) : List FactCategory :=
  let tokens := (wordRuns (pyLower query).data).map (fun run => String.mk run)
  tokens.foldl
    (fun hinted token =>
      match INTENT_HINTS.find? (fun kv => kv.1 = token) with
      | some kv => hintUnion hinted kv.2
      | none => hinted)
    []

/-- `_allow_category` of `app/api/recall.py`. -/
def _allow_category (hinted : List FactCategory) (category : FactCategory) : Bool :=
  if hinted.isEmpty then true else hinted.contains category

/-- Recall inputs as read by `recall_facts` from the feature-complete
request model (`user_id`, `query`, `limit`, `categories`,
`include_historical`, `current_view_only`, `max_age_days`). -/
structure RecallParams where
  user_id : Nat
  query : String
  lim : Nat
  categories : Option (List FactCategory)
  include_historical : Bool
  current_view_only : Bool
  max_age_days : Option Int
deriving Repr

/-- The SQL-level filters of the vector stage of `recall_facts`; note the
absence of any `created_at` cutoff. -/
def vectorPass (req : RecallParams) (category_filter : Option (List FactCategory))
    (dist : MemoryFact → ℚ) (f : MemoryFact) : Bool :=
  decide (f.user_id = req.user_id) &&
  decide (f.embedding ≠ none) &&
  decide (f.expires_at = none) &&
  decide (dist f < MIN_VECTOR_DISTANCE) &&
  (!req.current_view_only || decide (f.superseded_by = none)) &&
  (match category_filter with
   | none => true
   | some cs => cs.any (fun c => decide (c = f.category))) &&
  (req.include_historical || decide (f.temporal_state ≠ TemporalState.past))

/-- The SQL-level filters of the lexical candidate pool of `recall_facts`,
including the `created_at >= cutoff_ts` age filter. -/
def lexicalPass (req : RecallParams) (category_filter : Option (List FactCategory))
    (cutoff_ts : Option Int) (f : MemoryFact) : Bool :=
  decide (f.user_id = req.user_id) &&
  decide (f.expires_at = none) &&
  (!req.current_view_only || decide (f.superseded_by = none)) &&
  (match cutoff_ts with
   | none => true
   | some cutoff => decide (f.created_at ≥ cutoff)) &&
  (match category_filter with
   | none => true
   | some cs => cs.any (fun c => decide (c = f.category))) &&
  (req.include_historical || decide (f.temporal_state ≠ TemporalState.past))

/-- `_get_balanced_profile_facts` of `app/api/recall.py`. -/
def _get_balanced_profile_facts (db : List MemoryFact) (uid : Nat) (lim : Nat)
    (include_historical current_view_only : Bool) : List MemoryFact :=
  let per_category := max 1 (lim / allFactCategories.length)
  let collected := allFactCategories.flatMap (fun category =>
    let flt := fun (f : MemoryFact) =>
      decide (f.user_id = uid) && decide (f.category = category) &&
      decide (f.expires_at = none) &&
      (!current_view_only || decide (f.superseded_by = none)) &&
      (include_historical || decide (f.temporal_state ≠ TemporalState.past))
    (stableSort keyGE (db.filter flt)).take per_category)
  collected.take lim

/-- `_get_high_confidence_facts` of `app/api/recall.py`. -/
def _get_high_confidence_facts (db : List MemoryFact) (uid : Nat) (lim : Nat)
    (include_historical current_view_only : Bool)
    (min_confidence : ℚ := HIGH_CONFIDENCE_FALLBACK) : List MemoryFact :=
  let flt := fun (f : MemoryFact) =>
    decide (f.user_id = uid) && decide (f.expires_at = none) &&
    decide (f.confidence_score ≥ min_confidence) &&
    (!current_view_only || decide (f.superseded_by = none)) &&
    (include_historical || decide (f.temporal_state ≠ TemporalState.past))
  (stableSort keyGE (db.filter flt)).take lim

/-- The fill loops of the generic fallback: append facts whose id is unseen
until the limit is reached. -/
def fillUnique (lim : Nat) (base extra : List MemoryFact) : List MemoryFact :=
  extra.foldl
    (fun acc f =>
      if acc.length < lim ∧ ¬ (acc.map (fun g => g.id)).contains f.id then acc ++ [f]
      else acc)
    base

/-- The retrieval core of the `recall_facts` endpoint
(`app/api/recall.py`): vector stage, lexical fill, generic fallback.
`sim` is the external `token_set_ratio`; `dist` is the pgvector cosine
distance of the (successful) query embedding, `none` when embedding failed;
`is_generic` is the result of the regex-based `_is_generic_query`. -/
def recall_facts (sim : String → String → ℚ) (dist : Option (MemoryFact → ℚ))
    (now : Int) (db : List MemoryFact) (req : RecallParams) (is_generic : Bool) :
    List MemoryFact :=
  let hinted := _hint_categories req.query
  let explicit : Option (List FactCategory) :=
    match req.categories with
    | some cs => if cs.isEmpty then none else some cs
    | none => none
  let category_filter : Option (List FactCategory) :=
    match explicit with
    | some cs => some cs
    | none => if ¬ hinted.isEmpty ∧ is_generic = false then some hinted else none
  let cutoff_ts : Option Int := req.max_age_days.map (fun d => now - d)
  let vector_results : List MemoryFact :=
    match dist with
    | none => []
    | some d =>
      (stableSort (fun a b => d a ≤ d b)
        (db.filter (vectorPass req category_filter d))).take req.lim
  let results2 : List MemoryFact :=
    if vector_results.length < req.lim then
      let candidate_pool := min (max (req.lim * 10) 50) 500
      let pool := (stableSort (fun a b => b.created_at ≤ a.created_at)
        (db.filter (lexicalPass req category_filter cutoff_ts))).take candidate_pool
      let seen := vector_results.map (fun f => f.id)
      let ranked := (pool.filter (fun f => ¬ seen.contains f.id)
          |>.filter (fun f => _allow_category hinted f.category)
          |>.filterMap (fun f =>
            let cs := _fuzzy_score sim req.query f.content f.confidence_score
            if cs.2 ≥ MIN_FUZZY_SIMILARITY then some (cs.1, f) else none))
      let rankedSorted := stableSort (fun a b => b.1 ≤ a.1) ranked
      vector_results ++ (rankedSorted.take (req.lim - vector_results.length)).map
        (fun x => x.2)
    else vector_results
  if is_generic ∧ results2.length < req.lim then
    let balanced := _get_balanced_profile_facts db req.user_id req.lim
      req.include_historical req.current_view_only
    let r3 := fillUnique req.lim results2 balanced
    if r3.length < req.lim then
      fillUnique req.lim r3
        (_get_high_confidence_facts db req.user_id (req.lim - r3.length)
          req.include_historical req.current_view_only HIGH_CONFIDENCE_FALLBACK)
    else r3
  else results2

/-- The `category_filter` local of `recall_facts`, as a standalone view:
explicit request categories win, otherwise intent hints (for non-generic
queries), otherwise no category filter. -/
def recallCategoryFilter (req : RecallParams) (is_generic : Bool) :
    Option (List FactCategory) :=
  let hinted := _hint_categories req.query
  let explicit : Option (List FactCategory) :=
    match req.categories with
    | some cs => if cs.isEmpty then none else some cs
    | none => none
  match explicit with
  | some cs => some cs
  | none => if ¬ hinted.isEmpty ∧ is_generic = false then some hinted else none

/-- The `cutoff_ts` local of `recall_facts`: `now - max_age_days` when the
age bound is requested. -/
def recallCutoff (req : RecallParams) (now : Int) : Option Int :=
  req.max_age_days.map (fun d => now - d)

/-! ### Request validation (`app/schemas/__init__.py`) -/

/-- The Pydantic constraints of the `RecallRequest` schema:
`query: str = Field(..., min_length=1)` and `limit: int = Field(default=5,
ge=1, le=20)`; `true` means the request passes validation. -/
def recallRequestValidates (query : String) (lim : Int) : Bool :=
  decide (1 ≤ query.length) && decide (1 ≤ lim) && decide (lim ≤ 20)

/-- The declared default of the `limit` field of `RecallRequest`. -/
def recallDefaultLimit : Int := 5

/-! ### Ingestion service (`app/services/ingestion.py`) and error taxonomy -/

/-- A `sessions` row (`Session` model): id and owning user. -/
structure SessionRow where
  id : Nat
  user_id : Nat
deriving Repr, DecidableEq

/-- A `chat_logs` row (`ChatLog` model). -/
structure ChatLogRow where
  id : Nat
  session_id : Nat
  role : String
  content : String
deriving Repr, DecidableEq

/-- The store slice the ingestion service touches. -/
structure IngestStore where
  sessions : List SessionRow
  chat_logs : List ChatLogRow
deriving Repr, DecidableEq

/-- An exception escaping a route handler, as the FastAPI app sees it:
a plain `ValueError`, an `HTTPException`, or a `MemoriError` subclass
(which carries its `status_code` and `code`). -/
inductive RaisedError where
  | valueError (msg : String)
  | httpException (status : Nat) (detail : String)
  | memoriError (status : Nat) (code : String)
deriving Repr, DecidableEq

/-- The HTTP status produced for a raised exception by the app of
`app/main.py`: `memori_error_handler` maps a `MemoriError` to its own
status, FastAPI maps an `HTTPException` to its status, and any other
exception (such as `ValueError`) becomes a 500 Internal Server Error. -/
def raisedStatus : RaisedError → Nat
  | .valueError _ => 500
  | .httpException status _ => status
  | .memoriError status _ => status

/-- The `/ingest` request fields used by the service. -/
structure IngestReq where
  user_id : Nat
  session_id : Nat
  role : String
  content : String
deriving Repr

/-- `IngestionService._validate_session`: raises `ValueError` when the
session does not exist. -/
def _validate_session (store : IngestStore) (session_id : Nat) :
    Except RaisedError SessionRow :=
  match store.sessions.find? (fun s => s.id = session_id) with
  | none => .error (.valueError "Session not found")
  | some s => .ok s

/-- The response of a successful ingest. -/
structure IngestResp where
  status : String
  job_id : String
  chat_log_id : Nat
deriving Repr, DecidableEq

/-- `IngestionService.process_message` after authorization: validate the
session, insert the chat-log row, enqueue extraction, return the queued
response.  The result pairs the store after the call with the outcome, the
store being unchanged when an exception is raised (the insert happens only
after validation). -/
def process_message (store : IngestStore) (req : IngestReq)
    (newLogId : Nat) (jobId : String) : IngestStore × Except RaisedError IngestResp :=
  match _validate_session store req.session_id with
  | .error e => (store, .error e)
  | .ok _ =>
    let log : ChatLogRow :=
      { id := newLogId, session_id := req.session_id, role := req.role,
        content := req.content }
    ({ store with chat_logs := store.chat_logs ++ [log] },
      .ok { status := "queued", job_id := jobId, chat_log_id := newLogId })

/-! ### Queue tags (`app/worker/queue.py` versus `WorkerSettings`) -/

/-- The job name `enqueue_memory_extraction` passes to `pool.enqueue_job` in
`app/worker/queue.py`. -/
def enqueuedExtractionJobName : String := "extract_memory_facts"

/-- The names under which the ARQ worker registers its functions: the
entries of `WorkerSettings.functions` in `app/worker/tasks.py` are plain
coroutine functions, registered under their function names. -/
def workerRegisteredFunctions : List String :=
  ["extract_facts_task", "optimize_user_memory", "scheduled_optimization",
   "decay_stale_facts", "consolidate_user_memory", "scheduled_consolidation"]

/-! ### Projections and predicates used to state pipeline properties -/

/-- Forget the two columns a dedup refresh may change
(`confidence_score`, `last_refreshed_at`): two rows with equal
`stripMutable` agree on every other column. -/
def stripMutable (f : MemoryFact) : MemoryFact :=
  { f with confidence_score := 0, last_refreshed_at := 0 }

/-- Forget the one column the supersession loop may change. -/
def stripSup (f : MemoryFact) : MemoryFact :=
  { f with superseded_by := none }

/-- Ids of the active rows (`superseded_by IS NULL ∧ expires_at IS NULL`). -/
def activeIds (fs : List MemoryFact) : List Nat :=
  (fs.filter (fun f => decide (f.superseded_by = none ∧ f.expires_at = none))).map
    (fun f => f.id)

/-- Whether the candidate loop stages a candidate as a new fact: confidence
at least `MIN_CONFIDENCE_TO_SAVE` and no fuzzy duplicate among the
snapshot rows. -/
def stagedPred (sim : String → String → ℚ) (snap : List MemoryFact)
    (c : ExtractedFact) : Bool :=
  !decide (c.confidence < MIN_CONFIDENCE_TO_SAVE) &&
    (snap.find? (fun f =>
      _is_fuzzy_duplicate sim [f.content] (normalize_fact c.content c.category))).isNone

/-- The staged form of a candidate (content normalized in place). -/
def stagedOf (c : ExtractedFact) : ExtractedFact :=
  { c with content := normalize_fact c.content c.category }

/-- The supersession-queue contribution of one staged candidate. -/
def queueOf (snap : List MemoryFact) (c : ExtractedFact) : List Nat :=
  if _supersedable_category c.category then
    (snap.filter (fun f => _same_slot f c.category c.slot_hint)).map (fun f => f.id)
  else []

/-! ### Concrete fixtures used by witnesses and counterexamples -/

/-- A concrete similarity function for witnesses: 100 for equal strings,
0 otherwise (any `WRatio`-like scorer agrees on these two values). -/
def simEq (a b : String) : ℚ := if a = b then 100 else 0

/-- A concrete stored fact: `"Lives in SF"`, biographical, location slot. -/
def sfFact : MemoryFact :=
  { id := 1, user_id := 3, category := .biographical, content := "Lives in SF",
    confidence_score := 1, slot_hint := some "location", temporal_state := .current,
    is_essential := false, source_message_id := none, superseded_by := none,
    expires_at := none, created_at := 0, last_refreshed_at := 0, embedding := none }

/-- A candidate extracting the same content as `sfFact`. -/
def sfCand : ExtractedFact :=
  { category := .biographical, slot_hint := some "location",
    temporal_state := .current, content := "Lives in SF", confidence := 1 }

/-- A legacy work-context fact without a slot hint (`"Works at Google"`). -/
def employerFact : MemoryFact :=
  { id := 1, user_id := 4, category := .work_context, content := "Works at Google",
    confidence_score := 0.8, slot_hint := none, temporal_state := .current,
    is_essential := false, source_message_id := none, superseded_by := none,
    expires_at := none, created_at := 0, last_refreshed_at := 0, embedding := none }

/-- A low-confidence role candidate staged before the employer candidate. -/
def roleCand : ExtractedFact :=
  { category := .work_context, slot_hint := some "role", temporal_state := .current,
    content := "is a junior engineer", confidence := 0.5 }

/-- A high-confidence employer candidate staged second. -/
def employerCand : ExtractedFact :=
  { category := .work_context, slot_hint := some "employer",
    temporal_state := .current, content := "Works at OpenAI", confidence := 0.9 }

/-- A pgvector distance function for the age-filter scenario: every stored
embedding is at distance 0 from the query embedding. -/
def c4dist : MemoryFact → ℚ := fun _ => 0

/-- A stored preference fact created at time 0, with an embedding. -/
def oldVecFact : MemoryFact :=
  { id := 9, user_id := 7, category := .user_preference, content := "Likes jazz",
    confidence_score := 1, slot_hint := none, temporal_state := .current,
    is_essential := false, source_message_id := none, superseded_by := none,
    expires_at := none, created_at := 0, last_refreshed_at := 0,
    embedding := some [1] }

/-- A recall request asking only for facts of the last 30 days. -/
def c4req : RecallParams :=
  { user_id := 7, query := "music", lim := 5, categories := none,
    include_historical := false, current_view_only := true,
    max_age_days := some 30 }

/-- A cosine function for witnesses that scores every pair identical. -/
def consCos : List ℚ → List ℚ → ℚ := fun _ _ => 1

/-- An essential stored fact with an embedding (`"Lives in Paris"`). -/
def consFactA : MemoryFact :=
  { id := 1, user_id := 5, category := .biographical, content := "Lives in Paris",
    confidence_score := 1, slot_hint := some "location", temporal_state := .current,
    is_essential := true, source_message_id := none, superseded_by := none,
    expires_at := none, created_at := 0, last_refreshed_at := 0,
    embedding := some [1] }

/-- A non-essential near-duplicate of `consFactA` with an embedding. -/
def consFactB : MemoryFact :=
  { id := 2, user_id := 5, category := .biographical, content := "Lives in Paris, France",
    confidence_score := 1, slot_hint := some "location", temporal_state := .current,
    is_essential := false, source_message_id := none, superseded_by := none,
    expires_at := none, created_at := 0, last_refreshed_at := 0,
    embedding := some [1] }

/-! ### Named conditions of `normalize_fact`, used to state its behavior -/

/-- The stripped content begins (case-insensitively) with one of the
temporal markers. -/
def hasTemporalPrefix (content : String) : Bool :=
  temporal_prefixes.any (fun p => pyStartsWith (pyLower (pyStrip content)) p)

/-- The stripped content is already biographical-prefixed
(`lives in|born in|from|age|lived in`). -/
def bioPrefixed (content : String) : Bool :=
  ["lives in", "born in", "from", "age", "lived in"].any
    (fun p => pyStartsWith (pyLower (pyStrip content)) p)

/-- The stripped content starts with `"in "` or `"at "`. -/
def inAtPrefixed (content : String) : Bool :=
  ["in ", "at "].any (fun p => pyStartsWith (pyLower (pyStrip content)) p)

/-- The stripped content contains the word `" in "`. -/
def containsIn (content : String) : Bool :=
  pyContains (pyLower (pyStrip content)) " in "

/-- The stripped content is already work-prefixed
(`works|is a|is an|employed|worked`). -/
def workPrefixed (content : String) : Bool :=
  ["works", "is a", "is an", "employed", "worked"].any
    (fun p => pyStartsWith (pyLower (pyStrip content)) p)

/-! ## Theorems settling the claims -/

/-- Claim C1 (code bug): the job tag `"extract_memory_facts"` that
`enqueue_memory_extraction` passes to the queue is NOT the name of any
function registered in `WorkerSettings.functions` (the worker registers the
coroutines `extract_facts_task`, …), so the enqueued extraction job matches
no worker function and the Ingestion → Queue → ExtractionWorker flow is not
realized as the spec states. -/
theorem C1_extraction_job_tag_not_registered :
    enqueuedExtractionJobName ∉ workerRegisteredFunctions := by
  decide

/-- Claim C8 (code bug): for an authorized ingest whose `session_id` is
unknown, `process_message` raises a plain `ValueError` (not the 404
`NotFoundError` of `app/errors.py`): the app maps it to HTTP 500, not the
404 `not_found` of the spec.  The store is unchanged (no message row is
persisted), as the claim states. -/
theorem C8_unknown_session_gives_500_not_404 :
    process_message ⟨[⟨1, 7⟩], []⟩ ⟨7, 2, "user", "hello"⟩ 10 "job-1" =
        (⟨[⟨1, 7⟩], []⟩, Except.error (RaisedError.valueError "Session not found")) ∧
      raisedStatus (RaisedError.valueError "Session not found") = 500 ∧
      (500 : Nat) ≠ 404 := by
  refine ⟨rfl, rfl, by decide⟩

/-- Claim C9 (counterexample): a whitespace-only query (`"   "`, which strips
to the empty string) together with the default limit PASSES the
`RecallRequest` validation — `min_length=1` counts characters and does not
strip — contradicting the claim that such requests are rejected. -/
theorem C9_counterexample_whitespace_query_passes :
    recallRequestValidates "   " recallDefaultLimit = true ∧ pyStrip "   " = "" := by
  decide

/-- Claim C9 (amended): the `RecallRequest` schema rejects exactly the empty
query and limits outside `1..20`; a whitespace-only (non-empty) query passes
the `min_length=1` check, and the declared default limit is 5. -/
theorem C9_recall_request_validation :
    (∀ (q : String) (lim : Int),
        recallRequestValidates q lim = false ↔ (q = "" ∨ lim < 1 ∨ 20 < lim)) ∧
      recallDefaultLimit = 5 := by
  refine ⟨fun q lim => ?_, rfl⟩
  have hq : q.length = 0 ↔ q = "" := by
    constructor
    · intro h
      exact String.ext (List.length_eq_zero.mp h)
    · intro h
      subst h
      rfl
  constructor
  · intro h
    by_contra hcon
    push_neg at hcon
    obtain ⟨h1, h2, h3⟩ := hcon
    have hlen : 1 ≤ q.length :=
      Nat.one_le_iff_ne_zero.mpr (fun h0 => h1 (hq.mp h0))
    have hv : recallRequestValidates q lim = true := by
      simp only [recallRequestValidates, Bool.and_eq_true, decide_eq_true_eq]
      exact ⟨⟨hlen, by omega⟩, by omega⟩
    rw [h] at hv
    exact Bool.false_ne_true hv
  · rintro (h | h | h)
    · subst h
      rfl
    · have hnl : ¬ (1 ≤ lim) := by omega
      simp [recallRequestValidates, hnl]
    · have hnl : ¬ (lim ≤ 20) := by omega
      simp [recallRequestValidates, hnl]

/-- Claim C7 (counterexample): the biographical content `"grew up in Dallas"`
begins with no temporal marker and no `lives in|born in|from|age|lived in`
marker, yet `normalize_fact` returns it unchanged (it contains `" in "`),
not `"Lives in " + content` as the claim states. -/
theorem C7_counterexample_contains_in_unchanged :
    normalize_fact "grew up in Dallas" FactCategory.biographical = "grew up in Dallas" ∧
      hasTemporalPrefix "grew up in Dallas" = false ∧
      bioPrefixed "grew up in Dallas" = false ∧
      normalize_fact "grew up in Dallas" FactCategory.biographical ≠
        "Lives in " ++ "grew up in Dallas" := by
  refine ⟨rfl, rfl, rfl, ?_⟩
  decide

/-- Claim C7 (amended): `normalize_fact` on the stripped content: contents
with a temporal-marker prefix are unchanged; biographical contents without a
`lives in|born in|from|age|lived in` prefix become `"Lives " + content` when
they start with `"in "` or `"at "`, stay unchanged when they contain
`" in "`, and become `"Lives in " + content` otherwise; work_context
contents without a `works|is a|is an|employed|worked` prefix become
`"Works at " + content` when the first character is upper case and
`"Is a " + content` otherwise; all other categories are unchanged. -/
theorem C7_normalize_fact_amended (content : String) (category : FactCategory) :
    (hasTemporalPrefix content = true →
      normalize_fact content category = pyStrip content) ∧
    (hasTemporalPrefix content = false →
      (category = FactCategory.biographical →
        (bioPrefixed content = true →
          normalize_fact content category = pyStrip content) ∧
        (bioPrefixed content = false →
          (inAtPrefixed content = true →
            normalize_fact content category = "Lives " ++ pyStrip content) ∧
          (inAtPrefixed content = false →
            (containsIn content = true →
              normalize_fact content category = pyStrip content) ∧
            (containsIn content = false →
              normalize_fact content category = "Lives in " ++ pyStrip content)))) ∧
      (category = FactCategory.work_context →
        (workPrefixed content = true →
          normalize_fact content category = pyStrip content) ∧
        (workPrefixed content = false →
          (firstIsUpper (pyStrip content) = true →
            normalize_fact content category = "Works at " ++ pyStrip content) ∧
          (firstIsUpper (pyStrip content) = false →
            normalize_fact content category = "Is a " ++ pyStrip content))) ∧
      (category = FactCategory.user_preference ∨ category = FactCategory.relationship ∨
          category = FactCategory.learning →
        normalize_fact content category = pyStrip content)) := by
  unfold normalize_fact hasTemporalPrefix bioPrefixed inAtPrefixed containsIn workPrefixed
  refine ⟨fun h1 => by simp [h1], fun h1 => ⟨fun hcat => ?_, fun hcat => ?_, fun hcat => ?_⟩⟩
  · subst hcat
    refine ⟨fun h2 => by simp [h1, h2], fun h2 => ⟨fun h3 => by simp [h1, h2, h3],
      fun h3 => ⟨fun h4 => by simp [h1, h2, h3, h4], fun h4 => by simp [h1, h2, h3, h4]⟩⟩⟩
  · subst hcat
    refine ⟨fun h2 => by simp [h1, h2], fun h2 => ⟨fun h3 => by simp [h1, h2, h3],
      fun h3 => by simp [h1, h2, h3]⟩⟩
  · rcases hcat with hcat | hcat | hcat <;> subst hcat <;> simp [h1]

/-- Claim C7 (witness): at the biographical content `"in Austin"` the amended
theorem yields `"Lives " + content` (which is `"Lives in Austin"`, not
`"Lives in in Austin"`). -/
theorem C7_witness_in_austin :
    normalize_fact "in Austin" FactCategory.biographical = "Lives in Austin" := by
  have h := ((((C7_normalize_fact_amended "in Austin"
    FactCategory.biographical).2 (by decide)).1 rfl).2 (by decide)).1 (by decide)
  rw [h]
  decide

/-- Marking essential twice is the same as marking once. -/
theorem markEssential_idem (f : MemoryFact) :
    markEssential (markEssential f) = markEssential f := rfl

/-- The optimization update loop preserves the length of the batch. -/
theorem essential_foldl_length (idxs : List Int) (fs : List MemoryFact) (c : Nat) :
    (idxs.foldl essentialStep (fs, c)).1.length = fs.length := by
  induction idxs generalizing fs c with
  | nil => rfl
  | cons i rest ih =>
    simp only [List.foldl_cons, essentialStep]
    by_cases hg : 0 ≤ i ∧ i < (fs.length : Int)
    · rw [if_pos hg, ih, List.length_modify]
    · rw [if_neg hg, ih]

/-- Elementwise characterization of the optimization update loop: position
`j` of the batch is marked essential exactly when the integer `j` occurs in
the index list, and positions outside the batch do not exist to be touched. -/
theorem essential_foldl_getElem? (idxs : List Int) (fs : List MemoryFact) (c : Nat)
    (j : Nat) :
    (idxs.foldl essentialStep (fs, c)).1[j]? =
      (fs[j]?).map (fun f => if (j : Int) ∈ idxs then markEssential f else f) := by
  induction idxs generalizing fs c with
  | nil =>
    simp
  | cons i rest ih =>
    simp only [List.foldl_cons, essentialStep]
    by_cases hg : 0 ≤ i ∧ i < (fs.length : Int)
    · rw [if_pos hg, ih, List.getElem?_modify]
      cases hfs : fs[j]? with
      | none => simp
      | some a =>
        by_cases hij : i.toNat = j
        · have hij' : (j : Int) = i := by omega
          simp [hij, hij', markEssential_idem]
        · have hij' : (j : Int) ≠ i := by omega
          simp [hij, List.mem_cons, hij']
    · rw [if_neg hg, ih]
      cases hfs : fs[j]? with
      | none => simp [hfs]
      | some a =>
        have hj : j < fs.length := by
          by_contra hc
          push_neg at hc
          rw [List.getElem?_eq_none hc] at hfs
          cases hfs
        have hij' : (j : Int) ≠ i := by
          push_neg at hg
          omega
        simp [hfs, List.mem_cons, hij']

/-- Claim C10 (confirmed): in `optimize_user_memory` the LLM-returned index
list is bounds-guarded: the batch keeps its length, position `j` is marked
`is_essential` exactly when integer `j` occurs in the returned indices (so
every out-of-range index, negative or at least the batch size, is silently
skipped and cannot raise), and no fact outside the loaded batch is
modified. -/
theorem C10_optimize_index_guard (facts : List MemoryFact) (idxs : List Int) :
    (applyEssentialIndices facts idxs).1.length = facts.length ∧
      ∀ j : Nat,
        (applyEssentialIndices facts idxs).1[j]? =
          (facts[j]?).map (fun f => if (j : Int) ∈ idxs then markEssential f else f) :=
  ⟨essential_foldl_length idxs facts 0,
    fun j => essential_foldl_getElem? idxs facts 0 j⟩

/-! ### General lemmas about the extraction pipeline -/

/-- Looking up the updated id sees the update (for id-preserving updates). -/
theorem lookupId_updateById (fs : List MemoryFact) (fid : Nat)
    (g : MemoryFact → MemoryFact) (hg : ∀ x, (g x).id = x.id) :
    lookupId (updateById fs fid g) fid = (lookupId fs fid).map g := by
  induction fs with
  | nil => rfl
  | cons f fs ih =>
    by_cases h : f.id = fid
    · simp [updateById, lookupId, List.find?_cons, h, hg]
    · simpa [updateById, lookupId, List.find?_cons, h] using ih

/-- Looking up a different id does not see the update. -/
theorem lookupId_updateById_ne (fs : List MemoryFact) (fid fid' : Nat)
    (g : MemoryFact → MemoryFact) (hg : ∀ x, (g x).id = x.id) (hne : fid' ≠ fid) :
    lookupId (updateById fs fid g) fid' = lookupId fs fid' := by
  induction fs with
  | nil => rfl
  | cons f fs ih =>
    have hhead : (if f.id = fid then g f else f).id = f.id := by
      by_cases h : f.id = fid
      · simp [h, hg]
      · simp [h]
    simp only [updateById, List.map_cons, lookupId] at ih ⊢
    by_cases h' : f.id = fid'
    · have hef : (if f.id = fid then g f else f) = f := by
        refine if_neg (fun hcon => hne ?_)
        rw [← h', hcon]
      rw [hef, List.find?_cons_of_pos _ (by simpa using h'),
        List.find?_cons_of_pos _ (by simpa using h')]
    · rw [List.find?_cons_of_neg _ (by simp [hhead, h']),
        List.find?_cons_of_neg _ (by simpa using h')]
      exact ih

/-- Updates invisible to a projection leave the projected list unchanged. -/
theorem map_updateById {β : Type} (proj : MemoryFact → β) (fs : List MemoryFact)
    (fid : Nat) (g : MemoryFact → MemoryFact) (hpg : ∀ x, proj (g x) = proj x) :
    (updateById fs fid g).map proj = fs.map proj := by
  unfold updateById
  rw [List.map_map]
  refine List.map_congr_left (fun f _ => ?_)
  by_cases h : f.id = fid <;> simp [h, hpg]

/-- `updateById` preserves length. -/
theorem length_updateById (fs : List MemoryFact) (fid : Nat)
    (g : MemoryFact → MemoryFact) : (updateById fs fid g).length = fs.length := by
  simp [updateById]

/-- A dedup refresh changes only the mutable columns. -/
theorem stripMutable_refreshFact (now : Int) (conf : ℚ) (f : MemoryFact) :
    stripMutable (refreshFact now conf f) = stripMutable f := rfl

/-- A supersession update changes only `superseded_by`. -/
theorem stripSup_setSup (nid : Nat) (f : MemoryFact) :
    stripSup { f with superseded_by := some nid } = stripSup f := rfl

/-- The candidate loop leaves every column except the mutable refresh
columns unchanged on the loaded rows. -/
theorem stageFold_facts_strip (sim : String → String → ℚ) (now : Int)
    (snap : List MemoryFact) (cands : List ExtractedFact) (acc : StageAcc) :
    ((cands.foldl (stageStep sim now snap) acc).facts).map stripMutable =
      acc.facts.map stripMutable := by
  induction cands generalizing acc with
  | nil => rfl
  | cons c cs ih =>
    rw [List.foldl_cons, ih]
    simp only [stageStep]
    by_cases hc : c.confidence < MIN_CONFIDENCE_TO_SAVE
    · rw [if_pos hc]
    · rw [if_neg hc]
      cases hfind : snap.find? (fun f =>
          _is_fuzzy_duplicate sim [f.content] (normalize_fact c.content c.category)) with
      | none => rfl
      | some dup =>
        exact map_updateById stripMutable acc.facts dup.id _
          (stripMutable_refreshFact now c.confidence)

/-- The pending buffer after the candidate loop: exactly the high-confidence
non-duplicate candidates, in order, with normalized content. -/
theorem stageFold_pending (sim : String → String → ℚ) (now : Int)
    (snap : List MemoryFact) (cands : List ExtractedFact) (acc : StageAcc) :
    (cands.foldl (stageStep sim now snap) acc).pending =
      acc.pending ++ (cands.filter (stagedPred sim snap)).map stagedOf := by
  induction cands generalizing acc with
  | nil => simp
  | cons c cs ih =>
    rw [List.foldl_cons, ih, List.filter_cons]
    by_cases hc : c.confidence < MIN_CONFIDENCE_TO_SAVE
    · have hsp : stagedPred sim snap c = false := by simp [stagedPred, hc]
      have hstep : stageStep sim now snap acc c = acc := by simp [stageStep, hc]
      rw [hstep, hsp]
      simp
    · cases hfind : snap.find? (fun f =>
          _is_fuzzy_duplicate sim [f.content] (normalize_fact c.content c.category)) with
      | some dup =>
        have hsp : stagedPred sim snap c = false := by simp [stagedPred, hc, hfind]
        have hstep : (stageStep sim now snap acc c).pending = acc.pending := by
          simp [stageStep, hc, hfind]
        rw [hstep, hsp]
        simp
      | none =>
        have hsp : stagedPred sim snap c = true := by simp [stagedPred, hc, hfind]
        have hstep : (stageStep sim now snap acc c).pending =
            acc.pending ++ [stagedOf c] := by
          simp [stageStep, hc, hfind, stagedOf]
        rw [hstep, hsp]
        simp

/-- The supersession queue after the candidate loop: the concatenated
same-slot snapshot ids of the staged candidates, in order. -/
theorem stageFold_queue (sim : String → String → ℚ) (now : Int)
    (snap : List MemoryFact) (cands : List ExtractedFact) (acc : StageAcc) :
    (cands.foldl (stageStep sim now snap) acc).queue =
      acc.queue ++ (cands.filter (stagedPred sim snap)).flatMap (queueOf snap) := by
  induction cands generalizing acc with
  | nil => simp
  | cons c cs ih =>
    rw [List.foldl_cons, ih, List.filter_cons]
    by_cases hc : c.confidence < MIN_CONFIDENCE_TO_SAVE
    · have hsp : stagedPred sim snap c = false := by simp [stagedPred, hc]
      have hstep : stageStep sim now snap acc c = acc := by simp [stageStep, hc]
      rw [hstep, hsp]
      simp
    · cases hfind : snap.find? (fun f =>
          _is_fuzzy_duplicate sim [f.content] (normalize_fact c.content c.category)) with
      | some dup =>
        have hsp : stagedPred sim snap c = false := by simp [stagedPred, hc, hfind]
        have hstep : (stageStep sim now snap acc c).queue = acc.queue := by
          simp [stageStep, hc, hfind]
        rw [hstep, hsp]
        simp
      | none =>
        have hsp : stagedPred sim snap c = true := by simp [stagedPred, hc, hfind]
        have hstep : (stageStep sim now snap acc c).queue =
            acc.queue ++ queueOf snap c := by
          simp [stageStep, hc, hfind, queueOf]
        rw [hstep, hsp]
        simp

/-- The supersession loop changes nothing except `superseded_by`. -/
theorem supersedeFold_strip (newFacts : List MemoryFact) (qs : List Nat)
    (fs : List MemoryFact) :
    ((qs.foldl (supersedeStep newFacts) fs).map stripSup) = fs.map stripSup := by
  induction qs generalizing fs with
  | nil => rfl
  | cons q qs ih =>
    rw [List.foldl_cons]
    have hstep : (supersedeStep newFacts fs q).map stripSup = fs.map stripSup := by
      cases hl : lookupId fs q with
      | none => simp [supersedeStep, hl]
      | some fact =>
        cases hn : newFacts.find? (fun nf => _same_slot fact nf.category nf.slot_hint) with
        | none => simp [supersedeStep, hl, hn]
        | some newest =>
          by_cases hs : _should_supersede fact newest.confidence_score = true
          · simp only [supersedeStep, hl, hn, if_pos hs]
            exact map_updateById stripSup fs fact.id _ (stripSup_setSup newest.id)
          · simp [supersedeStep, hl, hn, hs]
    rw [ih, hstep]

/-- Membership transfer along an equal projected image. -/
theorem exists_of_map_eq {α β : Type} {proj : α → β} {l l' : List α}
    (h : l.map proj = l'.map proj) {f : α} (hf : f ∈ l) :
    ∃ f', f' ∈ l' ∧ proj f' = proj f := by
  have hm : proj f ∈ l'.map proj := by
    rw [← h]
    exact List.mem_map_of_mem proj hf
  rcases List.mem_map.mp hm with ⟨f', hf', he⟩
  exact ⟨f', hf', he⟩

/-- A projection invariant under a strip map transfers equal stripped images
to equal projected images. -/
theorem map_proj_of_map_strip {β : Type} (strip : MemoryFact → MemoryFact)
    (proj : MemoryFact → β) (hcomp : ∀ f, proj (strip f) = proj f)
    {l l' : List MemoryFact} (h : l.map strip = l'.map strip) :
    l.map proj = l'.map proj := by
  have h1 : l.map proj = (l.map strip).map proj := by
    rw [List.map_map]
    exact List.map_congr_left (fun f _ => (hcomp f).symm)
  rw [h1, h, List.map_map]
  exact List.map_congr_left (fun f _ => hcomp f)

/-- Claim C3 (confirmed): in a single-candidate extraction run with
confidence at least `MIN_CONFIDENCE_TO_SAVE`: if some non-expired fact
scores at least `T_dup = 75` against the normalized candidate (the first
such match being `m`), then no new row is inserted and the matched row's
`last_refreshed_at` becomes `now` (strictly advancing it) while its
confidence becomes the max with the incoming confidence; if every existing
fact scores below the threshold, the candidate is not treated as a
duplicate: a new row is inserted with the normalized content and no
existing row is refreshed. -/
theorem C3_dedup_refresh_or_insert (sim : String → String → ℚ) (now : Int)
    (st : ExtractState) (c : ExtractedFact) (embeds : List (Option (List ℚ)))
    (srcMsg : Option Nat)
    (hconf : ¬ c.confidence < MIN_CONFIDENCE_TO_SAVE) :
    (∀ m, (existingSnapshot st.facts).find? (fun f =>
          _is_fuzzy_duplicate sim [f.content] (normalize_fact c.content c.category)) =
            some m →
      (extract_facts_commit sim now st [c] embeds srcMsg).facts =
          updateById st.facts m.id (refreshFact now c.confidence) ∧
        (extract_facts_commit sim now st [c] embeds srcMsg).facts.length =
          st.facts.length ∧
        (extract_facts_commit sim now st [c] embeds srcMsg).nextId = st.nextId ∧
        lookupId (extract_facts_commit sim now st [c] embeds srcMsg).facts m.id =
          (lookupId st.facts m.id).map (fun g =>
            { g with last_refreshed_at := now,
                     confidence_score := max g.confidence_score c.confidence }) ∧
        (∀ g, lookupId st.facts m.id = some g → g.last_refreshed_at < now →
          ∃ g', lookupId (extract_facts_commit sim now st [c] embeds srcMsg).facts m.id =
              some g' ∧ g.last_refreshed_at < g'.last_refreshed_at)) ∧
    ((existingSnapshot st.facts).find? (fun f =>
        _is_fuzzy_duplicate sim [f.content] (normalize_fact c.content c.category)) =
          none →
      embeds ≠ [] →
      (extract_facts_commit sim now st [c] embeds srcMsg).facts.length =
          st.facts.length + 1 ∧
        (extract_facts_commit sim now st [c] embeds srcMsg).facts.map
            (fun f => (f.content, f.confidence_score, f.last_refreshed_at)) =
          st.facts.map (fun f => (f.content, f.confidence_score, f.last_refreshed_at)) ++
            [(normalize_fact c.content c.category, c.confidence, now)]) := by
  constructor
  · intro m hfind
    have hacc : stageCandidates sim now st.facts [c] =
        ⟨updateById st.facts m.id (refreshFact now c.confidence), [], []⟩ := by
      simp [stageCandidates, stageStep, hconf, hfind]
    have hfacts : (extract_facts_commit sim now st [c] embeds srcMsg).facts =
        updateById st.facts m.id (refreshFact now c.confidence) := by
      simp [extract_facts_commit, hacc, buildNewFacts]
    have hid : ∀ x, (refreshFact now c.confidence x).id = x.id := fun _ => rfl
    have hlook : lookupId (extract_facts_commit sim now st [c] embeds srcMsg).facts m.id =
        (lookupId st.facts m.id).map (refreshFact now c.confidence) := by
      rw [hfacts]
      exact lookupId_updateById st.facts m.id _ hid
    refine ⟨hfacts, by rw [hfacts, length_updateById],
      by simp [extract_facts_commit, hacc], hlook, ?_⟩
    intro g hg hlt
    refine ⟨refreshFact now c.confidence g, ?_, ?_⟩
    · rw [hlook, hg]
      rfl
    · simpa [refreshFact] using hlt
  · intro hfind hne
    obtain ⟨e, es, rfl⟩ := List.exists_cons_of_ne_nil hne
    have hacc : stageCandidates sim now st.facts [c] =
        ⟨st.facts, [stagedOf c], queueOf (existingSnapshot st.facts) c⟩ := by
      simp [stageCandidates, stageStep, hconf, hfind, stagedOf, queueOf]
    set row : MemoryFact :=
      { id := st.nextId, user_id := 0, category := c.category,
        content := normalize_fact c.content c.category,
        confidence_score := c.confidence, slot_hint := c.slot_hint,
        temporal_state := c.temporal_state, is_essential := false,
        source_message_id := srcMsg, superseded_by := none, expires_at := none,
        created_at := now, last_refreshed_at := now,
        embedding := e } with hrow
    have hnew : buildNewFacts st.nextId now srcMsg (e :: es) [stagedOf c] = [row] := by
      rw [hrow]
      simp [buildNewFacts, stagedOf]
    have hfacts : (extract_facts_commit sim now st [c] (e :: es) srcMsg).facts =
        (queueOf (existingSnapshot st.facts) c).foldl (supersedeStep [row])
          (st.facts ++ [row]) := by
      simp [extract_facts_commit, hacc, hnew]
    have hstrip : (extract_facts_commit sim now st [c] (e :: es) srcMsg).facts.map stripSup =
        (st.facts ++ [row]).map stripSup := by
      rw [hfacts]
      exact supersedeFold_strip [row] _ (st.facts ++ [row])
    have hproj : (extract_facts_commit sim now st [c] (e :: es) srcMsg).facts.map
        (fun f => (f.content, f.confidence_score, f.last_refreshed_at)) =
        (st.facts ++ [row]).map
          (fun f => (f.content, f.confidence_score, f.last_refreshed_at)) := by
      exact map_proj_of_map_strip stripSup
        (fun f => (f.content, f.confidence_score, f.last_refreshed_at))
        (fun f => rfl) hstrip
    constructor
    · have hlen := congrArg List.length hstrip
      simp only [List.length_map, List.length_append, List.length_cons,
        List.length_nil] at hlen
      simpa using hlen
    · rw [hproj]
      simp [hrow]

/-- Claim C3 (witness): with the equality similarity, a candidate extracting
`"Lives in SF"` against a store already holding that fact refreshes the
stored row instead of inserting. -/
theorem C3_witness_refresh :
    (extract_facts_commit simEq 5 ⟨[sfFact], 2⟩ [sfCand] [] none).facts =
      updateById [sfFact] 1 (refreshFact 5 1) := by
  have h := (C3_dedup_refresh_or_insert simEq 5 ⟨[sfFact], 2⟩ sfCand [] none
    (by norm_num [sfCand, MIN_CONFIDENCE_TO_SAVE])).1 sfFact (by decide)
  simpa [sfCand, sfFact] using h.1

/-- The materialized rows project to the staged contents with null
`expires_at`, one row per pending fact, when the embedding batch covers the
pending list. -/
theorem buildNewFacts_proj (nextId : Nat) (now : Int) (srcMsg : Option Nat)
    (pending : List ExtractedFact) (embeds : List (Option (List ℚ)))
    (h : pending.length ≤ embeds.length) :
    (buildNewFacts nextId now srcMsg embeds pending).map
        (fun f => (f.content, f.expires_at)) =
      pending.map (fun p => (p.content, (none : Option Int))) := by
  induction pending generalizing embeds nextId with
  | nil => cases embeds <;> rfl
  | cons p ps ih =>
    cases embeds with
    | nil => simp at h
    | cons e es =>
      have htail := ih (nextId + 1) es (by simpa using h)
      simp [buildNewFacts, htail]

/-- An empty pending buffer materializes no rows. -/
theorem buildNewFacts_nil (nextId : Nat) (now : Int) (srcMsg : Option Nat)
    (embeds : List (Option (List ℚ))) :
    buildNewFacts nextId now srcMsg embeds [] = [] := by
  cases embeds <;> rfl

/-- Equal images under `stripMutable` give equal active-id lists. -/
theorem activeIds_congr {l l' : List MemoryFact}
    (h : l.map stripMutable = l'.map stripMutable) : activeIds l = activeIds l' := by
  induction l generalizing l' with
  | nil =>
    cases l' with
    | nil => rfl
    | cons b bs => simp at h
  | cons a as ih =>
    cases l' with
    | nil => simp at h
    | cons b bs =>
      simp only [List.map_cons, List.cons.injEq] at h
      obtain ⟨hab, hrest⟩ := h
      have hsup : a.superseded_by = b.superseded_by := by
        have := congrArg MemoryFact.superseded_by hab
        simpa [stripMutable] using this
      have hexp : a.expires_at = b.expires_at := by
        have := congrArg MemoryFact.expires_at hab
        simpa [stripMutable] using this
      have hid : a.id = b.id := by
        have := congrArg MemoryFact.id hab
        simpa [stripMutable] using this
      have htail := ih hrest
      simp only [activeIds, List.filter_cons] at htail ⊢
      by_cases hb : b.superseded_by = none ∧ b.expires_at = none
      · have ha : a.superseded_by = none ∧ a.expires_at = none :=
          ⟨hsup.trans hb.1, hexp.trans hb.2⟩
        rw [if_pos (by simpa using ha), if_pos (by simpa using hb)]
        simp only [List.map_cons, hid]
        exact congrArg (fun t => b.id :: t) htail
      · have ha : ¬ (a.superseded_by = none ∧ a.expires_at = none) := by
          rw [hsup, hexp]
          exact hb
        rw [if_neg (by simpa using ha), if_neg (by simpa using hb)]
        exact htail

/-- Claim C5 (confirmed): extraction is idempotent over replays.  For any
similarity that scores identical strings at least `T_dup = 75` and any run
whose embedding batch covers its pending facts, replaying the same
candidate list against the committed state stages nothing: every candidate
is classified a duplicate (or dropped for low confidence, as before), so
the second run inserts no rows, changes no `superseded_by`, leaves every
column except the refresh columns unchanged, allocates no ids, and
preserves the set of active fact ids. -/
theorem C5_extraction_replay_idempotent (sim : String → String → ℚ)
    (now0 now1 : Int) (st : ExtractState) (cands : List ExtractedFact)
    (embeds embeds' : List (Option (List ℚ))) (src src' : Option Nat)
    (hrefl : ∀ s, sim s s ≥ 75)
    (hembeds : (stageCandidates sim now0 st.facts cands).pending.length ≤
      embeds.length) :
    (stageCandidates sim now1
        (extract_facts_commit sim now0 st cands embeds src).facts cands).pending = [] ∧
      (extract_facts_commit sim now1 (extract_facts_commit sim now0 st cands embeds src)
            cands embeds' src').facts.map stripMutable =
        (extract_facts_commit sim now0 st cands embeds src).facts.map stripMutable ∧
      (extract_facts_commit sim now1 (extract_facts_commit sim now0 st cands embeds src)
            cands embeds' src').facts.length =
        (extract_facts_commit sim now0 st cands embeds src).facts.length ∧
      (extract_facts_commit sim now1 (extract_facts_commit sim now0 st cands embeds src)
            cands embeds' src').nextId =
        (extract_facts_commit sim now0 st cands embeds src).nextId ∧
      activeIds (extract_facts_commit sim now1
          (extract_facts_commit sim now0 st cands embeds src) cands embeds' src').facts =
        activeIds (extract_facts_commit sim now0 st cands embeds src).facts := by
  set st1 := extract_facts_commit sim now0 st cands embeds src with hst1def
  set acc1 := stageCandidates sim now0 st.facts cands with hacc1def
  set nfs1 := buildNewFacts st.nextId now0 src embeds acc1.pending with hnfs1def
  have hst1facts : st1.facts = acc1.queue.foldl (supersedeStep nfs1) (acc1.facts ++ nfs1) :=
    rfl
  have hP : acc1.pending =
      (cands.filter (stagedPred sim (existingSnapshot st.facts))).map stagedOf := by
    rw [hacc1def]
    unfold stageCandidates
    simpa using stageFold_pending sim now0 (existingSnapshot st.facts) cands
      ⟨st.facts, [], []⟩
  have hsupstrip : st1.facts.map stripSup = (acc1.facts ++ nfs1).map stripSup := by
    rw [hst1facts]
    exact supersedeFold_strip nfs1 acc1.queue (acc1.facts ++ nfs1)
  have h1 : st1.facts.map (fun f => (f.content, f.expires_at)) =
      (acc1.facts ++ nfs1).map (fun f => (f.content, f.expires_at)) :=
    map_proj_of_map_strip stripSup (fun f => (f.content, f.expires_at))
      (fun f => rfl) hsupstrip
  have h2 : acc1.facts.map stripMutable = st.facts.map stripMutable := by
    rw [hacc1def]
    unfold stageCandidates
    exact stageFold_facts_strip sim now0 (existingSnapshot st.facts) cands ⟨st.facts, [], []⟩
  have h3 : acc1.facts.map (fun f => (f.content, f.expires_at)) =
      st.facts.map (fun f => (f.content, f.expires_at)) :=
    map_proj_of_map_strip stripMutable (fun f => (f.content, f.expires_at))
      (fun f => rfl) h2
  have h4 : nfs1.map (fun f => (f.content, f.expires_at)) =
      acc1.pending.map (fun p => (p.content, (none : Option Int))) :=
    buildNewFacts_proj st.nextId now0 src acc1.pending embeds hembeds
  have hcb : st1.facts.map (fun f => (f.content, f.expires_at)) =
      st.facts.map (fun f => (f.content, f.expires_at)) ++
        acc1.pending.map (fun p => (p.content, (none : Option Int))) := by
    rw [h1, List.map_append, h3, h4]
  have hKL : ∀ c ∈ cands, stagedPred sim (existingSnapshot st1.facts) c = false := by
    intro c hc
    by_cases hconf : c.confidence < MIN_CONFIDENCE_TO_SAVE
    · simp [stagedPred, hconf]
    · have hex : ∃ f ∈ existingSnapshot st1.facts,
          _is_fuzzy_duplicate sim [f.content]
            (normalize_fact c.content c.category) = true := by
        cases hfind : (existingSnapshot st.facts).find? (fun f =>
            _is_fuzzy_duplicate sim [f.content]
              (normalize_fact c.content c.category)) with
        | some m =>
          have hmem := List.mem_of_find?_eq_some hfind
          have hpred := List.find?_some hfind
          have hmem' := List.mem_filter.mp hmem
          have hmemcb : (m.content, m.expires_at) ∈
              st1.facts.map (fun f => (f.content, f.expires_at)) := by
            rw [hcb]
            exact List.mem_append_left _
              (List.mem_map_of_mem (fun f => (f.content, f.expires_at)) hmem'.1)
          rcases List.mem_map.mp hmemcb with ⟨f1, hf1, hcbeq⟩
          have hcont : f1.content = m.content := congrArg Prod.fst hcbeq
          have hexp : f1.expires_at = m.expires_at := congrArg Prod.snd hcbeq
          refine ⟨f1, List.mem_filter.mpr ⟨hf1, ?_⟩, ?_⟩
          · rw [hexp]
            exact hmem'.2
          · rw [show (_is_fuzzy_duplicate sim [f1.content]
                (normalize_fact c.content c.category)) =
                _is_fuzzy_duplicate sim [m.content]
                  (normalize_fact c.content c.category) by rw [hcont]]
            exact hpred
        | none =>
          have hsp : stagedPred sim (existingSnapshot st.facts) c = true := by
            simp [stagedPred, hconf, hfind]
          have hmemP : stagedOf c ∈ acc1.pending := by
            rw [hP]
            exact List.mem_map_of_mem _ (List.mem_filter.mpr ⟨hc, hsp⟩)
          have hmemcb : ((stagedOf c).content, (none : Option Int)) ∈
              st1.facts.map (fun f => (f.content, f.expires_at)) := by
            rw [hcb]
            exact List.mem_append_right _
              (List.mem_map_of_mem (fun p => (p.content, (none : Option Int))) hmemP)
          rcases List.mem_map.mp hmemcb with ⟨f1, hf1, hcbeq⟩
          have hcont : f1.content = normalize_fact c.content c.category :=
            congrArg Prod.fst hcbeq
          have hexp : f1.expires_at = none := congrArg Prod.snd hcbeq
          refine ⟨f1, List.mem_filter.mpr ⟨hf1, by simp [hexp]⟩, ?_⟩
          simp only [_is_fuzzy_duplicate, List.any_cons, List.any_nil, Bool.or_false,
            hcont]
          exact decide_eq_true (hrefl (normalize_fact c.content c.category))
      cases hfind1 : (existingSnapshot st1.facts).find? (fun f =>
          _is_fuzzy_duplicate sim [f.content]
            (normalize_fact c.content c.category)) with
      | some m1 => simp [stagedPred, hconf, hfind1]
      | none =>
        rcases hex with ⟨f, hfmem, hfpred⟩
        exact absurd hfpred (by simpa using (List.find?_eq_none.mp hfind1) f hfmem)
  have hfilter : cands.filter (stagedPred sim (existingSnapshot st1.facts)) = [] := by
    rw [List.filter_eq_nil_iff]
    intro c hc
    simp [hKL c hc]
  have hp2 : (stageCandidates sim now1 st1.facts cands).pending = [] := by
    unfold stageCandidates
    rw [stageFold_pending sim now1 (existingSnapshot st1.facts) cands ⟨st1.facts, [], []⟩,
      hfilter]
    rfl
  have hq2 : (stageCandidates sim now1 st1.facts cands).queue = [] := by
    unfold stageCandidates
    rw [stageFold_queue sim now1 (existingSnapshot st1.facts) cands ⟨st1.facts, [], []⟩,
      hfilter]
    rfl
  set acc2 := stageCandidates sim now1 st1.facts cands with hacc2def
  have hst2facts : (extract_facts_commit sim now1 st1 cands embeds' src').facts =
      acc2.queue.foldl
        (supersedeStep (buildNewFacts st1.nextId now1 src' embeds' acc2.pending))
        (acc2.facts ++ buildNewFacts st1.nextId now1 src' embeds' acc2.pending) := rfl
  have hnfs2 : buildNewFacts st1.nextId now1 src' embeds' acc2.pending = [] := by
    rw [hp2]
    exact buildNewFacts_nil _ _ _ _
  have hst2 : (extract_facts_commit sim now1 st1 cands embeds' src').facts = acc2.facts := by
    rw [hst2facts, hnfs2, hq2, List.foldl_nil, List.append_nil]
  have hstrip2 : (extract_facts_commit sim now1 st1 cands embeds' src').facts.map
      stripMutable = st1.facts.map stripMutable := by
    rw [hst2, hacc2def]
    unfold stageCandidates
    exact stageFold_facts_strip sim now1 (existingSnapshot st1.facts) cands
      ⟨st1.facts, [], []⟩
  refine ⟨hp2, hstrip2, ?_, ?_, activeIds_congr hstrip2⟩
  · have := congrArg List.length hstrip2
    simpa using this
  · show st1.nextId + acc2.pending.length = st1.nextId
    rw [hp2]
    rfl

/-- Claim C5 (witness): replaying the `"Lives in SF"` extraction on an
initially empty store stages nothing the second time and preserves the
active ids. -/
theorem C5_witness_replay :
    (stageCandidates simEq 1
        (extract_facts_commit simEq 0 ⟨[], 0⟩ [sfCand] [none] none).facts
        [sfCand]).pending = [] ∧
      activeIds (extract_facts_commit simEq 1
          (extract_facts_commit simEq 0 ⟨[], 0⟩ [sfCand] [none] none)
          [sfCand] [none] none).facts =
        activeIds (extract_facts_commit simEq 0 ⟨[], 0⟩ [sfCand] [none] none).facts := by
  have h := C5_extraction_replay_idempotent simEq 0 1 ⟨[], 0⟩ [sfCand] [none] [none]
    none none (fun s => by norm_num [simEq])
    (by norm_num [stageCandidates, stageStep, existingSnapshot, sfCand,
      MIN_CONFIDENCE_TO_SAVE])
  exact ⟨h.1, h.2.2.2.2⟩

/-- A lookup that succeeds on the left part of an append. -/
theorem lookupId_append_left {l₁ l₂ : List MemoryFact} {i : Nat} {a : MemoryFact}
    (h : lookupId l₁ i = some a) : lookupId (l₁ ++ l₂) i = some a := by
  induction l₁ with
  | nil => simp [lookupId] at h
  | cons x xs ih =>
    by_cases hx : x.id = i
    · unfold lookupId at h ⊢
      rw [List.cons_append, List.find?_cons_of_pos _ (by simpa using hx)]
      rw [List.find?_cons_of_pos _ (by simpa using hx)] at h
      exact h
    · unfold lookupId at h ⊢
      rw [List.cons_append, List.find?_cons_of_neg _ (by simpa using hx)]
      rw [List.find?_cons_of_neg _ (by simpa using hx)] at h
      exact ih h

/-- Lookups transfer along equal stripped images (for id-preserving
strips). -/
theorem lookupId_of_map_eq (strip : MemoryFact → MemoryFact)
    (hid : ∀ x, (strip x).id = x.id) {l l' : List MemoryFact}
    (h : l.map strip = l'.map strip) {i : Nat} {a : MemoryFact}
    (ha : lookupId l i = some a) :
    ∃ b, lookupId l' i = some b ∧ strip b = strip a := by
  induction l generalizing l' with
  | nil => simp [lookupId] at ha
  | cons x xs ih =>
    cases l' with
    | nil => simp at h
    | cons y ys =>
      simp only [List.map_cons, List.cons.injEq] at h
      obtain ⟨hxy, hrest⟩ := h
      have hidxy : x.id = y.id := by
        have h1 := congrArg MemoryFact.id hxy
        rwa [hid, hid] at h1
      by_cases hx : x.id = i
      · unfold lookupId at ha ⊢
        rw [List.find?_cons_of_pos _ (by simpa using hx)] at ha
        cases ha
        refine ⟨y, ?_, hxy.symm⟩
        rw [List.find?_cons_of_pos _ (by simp [← hidxy, hx])]
      · unfold lookupId at ha ⊢
        rw [List.find?_cons_of_neg _ (by simpa using hx)] at ha
        rw [List.find?_cons_of_neg _ (by simp [← hidxy, hx])]
        exact ih hrest ha

/-- With unique ids, looking a member's id up returns that member. -/
theorem lookupId_self_of_nodup {l : List MemoryFact}
    (h : (l.map (fun f => f.id)).Nodup) {f : MemoryFact} (hf : f ∈ l) :
    lookupId l f.id = some f := by
  induction l with
  | nil => cases hf
  | cons x xs ih =>
    simp only [List.map_cons, List.nodup_cons] at h
    rcases List.mem_cons.mp hf with rfl | hf'
    · unfold lookupId
      rw [List.find?_cons_of_pos _ (by simp)]
    · have hx : x.id ≠ f.id := by
        intro he
        exact h.1 (he ▸ List.mem_map_of_mem _ hf')
      unfold lookupId
      rw [List.find?_cons_of_neg _ (by simpa using hx)]
      exact ih h.2 hf'

/-- With unique ids, members with equal ids are equal. -/
theorem eq_of_id_eq_of_nodup {l : List MemoryFact}
    (h : (l.map (fun f => f.id)).Nodup) {a b : MemoryFact}
    (ha : a ∈ l) (hb : b ∈ l) (hid : a.id = b.id) : a = b := by
  have h1 := lookupId_self_of_nodup h ha
  have h2 := lookupId_self_of_nodup h hb
  rw [hid] at h1
  rw [h1] at h2
  exact (Option.some.injEq _ _ ▸ h2 : a = b)

/-- A supersession step at a different queue id does not change a lookup. -/
theorem supersedeStep_lookup_ne (nfs : List MemoryFact) (fs : List MemoryFact)
    (q i : Nat) (hne : i ≠ q) :
    lookupId (supersedeStep nfs fs q) i = lookupId fs i := by
  cases hl : lookupId fs q with
  | none => simp [supersedeStep, hl]
  | some fact =>
    have hfid : fact.id = q := by
      have := List.find?_some hl
      simpa using this
    cases hn : nfs.find? (fun nf => _same_slot fact nf.category nf.slot_hint) with
    | none => simp [supersedeStep, hl, hn]
    | some newest =>
      by_cases hs : _should_supersede fact newest.confidence_score = true
      · simp only [supersedeStep, hl, hn, if_pos hs]
        rw [hfid]
        exact lookupId_updateById_ne fs q i _ (fun x => rfl) hne
      · simp [supersedeStep, hl, hn, hs]

/-- Once a row is superseded by the first same-slot pending row, the rest of
the supersession loop keeps it at that value. -/
theorem supersedeFold_lookup_set (nfs : List MemoryFact) (qs : List Nat)
    (fs : List MemoryFact) (i : Nat) (f₁ g₀ : MemoryFact)
    (hfind : nfs.find? (fun nf => _same_slot f₁ nf.category nf.slot_hint) = some g₀)
    (hidf : f₁.id = i)
    (hcur : lookupId fs i = some { f₁ with superseded_by := some g₀.id }) :
    lookupId (qs.foldl (supersedeStep nfs) fs) i =
      some { f₁ with superseded_by := some g₀.id } := by
  subst hidf
  induction qs generalizing fs with
  | nil => exact hcur
  | cons q qs ih =>
    rw [List.foldl_cons]
    by_cases hq : f₁.id = q
    · have hsetfind : nfs.find? (fun nf =>
          _same_slot { f₁ with superseded_by := some g₀.id } nf.category nf.slot_hint) =
            some g₀ := hfind
      have hs' : _should_supersede { f₁ with superseded_by := some g₀.id }
          g₀.confidence_score = true := by
        simp [_should_supersede]
      have hstep : lookupId (supersedeStep nfs fs q) f₁.id =
          some { f₁ with superseded_by := some g₀.id } := by
        rw [← hq]
        simp only [supersedeStep, hcur, hsetfind, if_pos hs']
        rw [lookupId_updateById fs f₁.id
          (fun f => { f with superseded_by := some g₀.id }) (fun x => rfl), hcur]
        rfl
      exact ih _ hstep
    · exact ih _ (by rw [supersedeStep_lookup_ne nfs fs q f₁.id (fun h => hq h)]; exact hcur)

/-- The supersession loop on a still-active row with a first same-slot
pending row `g₀`: the row ends superseded by `g₀` exactly when it is queued
and `_should_supersede` allows, and is untouched otherwise. -/
theorem supersedeFold_lookup_pristine (nfs : List MemoryFact) (qs : List Nat)
    (fs : List MemoryFact) (i : Nat) (f₁ g₀ : MemoryFact)
    (hfind : nfs.find? (fun nf => _same_slot f₁ nf.category nf.slot_hint) = some g₀)
    (hidf : f₁.id = i)
    (hcur : lookupId fs i = some f₁) :
    lookupId (qs.foldl (supersedeStep nfs) fs) i =
      some (if i ∈ qs ∧ _should_supersede f₁ g₀.confidence_score = true
            then { f₁ with superseded_by := some g₀.id } else f₁) := by
  subst hidf
  induction qs generalizing fs with
  | nil => simpa using hcur
  | cons q qs ih =>
    rw [List.foldl_cons]
    by_cases hq : f₁.id = q
    · by_cases hs : _should_supersede f₁ g₀.confidence_score = true
      · have hstep : lookupId (supersedeStep nfs fs q) f₁.id =
            some { f₁ with superseded_by := some g₀.id } := by
          rw [← hq]
          simp only [supersedeStep, hcur, hfind, if_pos hs]
          rw [lookupId_updateById fs f₁.id
            (fun f => { f with superseded_by := some g₀.id }) (fun x => rfl), hcur]
          rfl
        rw [supersedeFold_lookup_set nfs qs _ f₁.id f₁ g₀ hfind rfl hstep]
        simp [hs, ← hq]
      · have hstep : supersedeStep nfs fs q = fs := by
          rw [← hq]
          simp only [supersedeStep, hcur, hfind, if_neg hs]
        rw [hstep, ih fs hcur]
        simp [hs]
    · rw [ih _ (by rw [supersedeStep_lookup_ne nfs fs q f₁.id (fun h => hq h)]; exact hcur)]
      refine congrArg some (if_congr ?_ rfl rfl)
      constructor
      · intro h
        exact ⟨List.mem_cons_of_mem q h.1, h.2⟩
      · rintro ⟨h1, h2⟩
        rcases List.mem_cons.mp h1 with h1 | h1
        · exact absurd h1 hq
        · exact ⟨h1, h2⟩

/-- The supersession loop leaves a row with no same-slot pending row
untouched. -/
theorem supersedeFold_lookup_nofind (nfs : List MemoryFact) (qs : List Nat)
    (fs : List MemoryFact) (i : Nat) (f₁ : MemoryFact)
    (hfind : nfs.find? (fun nf => _same_slot f₁ nf.category nf.slot_hint) = none)
    (hidf : f₁.id = i)
    (hcur : lookupId fs i = some f₁) :
    lookupId (qs.foldl (supersedeStep nfs) fs) i = some f₁ := by
  subst hidf
  induction qs generalizing fs with
  | nil => exact hcur
  | cons q qs ih =>
    rw [List.foldl_cons]
    by_cases hq : f₁.id = q
    · have hstep : supersedeStep nfs fs q = fs := by
        rw [← hq]
        simp only [supersedeStep, hcur, hfind]
      rw [hstep]
      exact ih fs hcur
    · exact ih _ (by rw [supersedeStep_lookup_ne nfs fs q f₁.id (fun h => hq h)]; exact hcur)

/-- The materialized rows carry the staged categories and slot hints (when
the embedding batch covers the pending list). -/
theorem buildNewFacts_slots (nextId : Nat) (now : Int) (srcMsg : Option Nat)
    (pending : List ExtractedFact) (embeds : List (Option (List ℚ)))
    (h : pending.length ≤ embeds.length) :
    (buildNewFacts nextId now srcMsg embeds pending).map
        (fun f => (f.category, f.slot_hint)) =
      pending.map (fun p => (p.category, p.slot_hint)) := by
  induction pending generalizing embeds nextId with
  | nil => cases embeds <;> rfl
  | cons p ps ih =>
    cases embeds with
    | nil => simp at h
    | cons e es =>
      have htail := ih (nextId + 1) es (by simpa using h)
      simp [buildNewFacts, htail]

/-- Full characterization of what one extraction commit does to the
`superseded_by` column of an existing non-expired row `f`: phase 1 only
refreshes it (`stripMutable` is preserved); it enters the supersession queue
exactly when some staged fact of supersedable category occupies its slot;
and its final `superseded_by` is decided against the FIRST pending row `g₀`
in its slot — set to `g₀.id` when it is queued and `_should_supersede`
passes against `g₀`'s confidence, and left unchanged otherwise. -/
theorem extract_supersession_char (sim : String → String → ℚ) (now : Int)
    (st : ExtractState) (cands : List ExtractedFact)
    (embeds : List (Option (List ℚ))) (src : Option Nat)
    (hnodup : (st.facts.map (fun f => f.id)).Nodup)
    (f : MemoryFact) (hf : f ∈ st.facts) (hexp : f.expires_at = none) :
    ∃ f₁, lookupId (stageCandidates sim now st.facts cands).facts f.id = some f₁ ∧
      stripMutable f₁ = stripMutable f ∧
      (f.id ∈ (stageCandidates sim now st.facts cands).queue ↔
        (_supersedable_category f.category = true ∧
          ∃ c ∈ (stageCandidates sim now st.facts cands).pending,
            _same_slot f c.category c.slot_hint = true)) ∧
      (∀ g₀, (buildNewFacts st.nextId now src embeds
            (stageCandidates sim now st.facts cands).pending).find?
              (fun nf => _same_slot f nf.category nf.slot_hint) = some g₀ →
        lookupId (extract_facts_commit sim now st cands embeds src).facts f.id =
          some (if f.id ∈ (stageCandidates sim now st.facts cands).queue ∧
              _should_supersede f₁ g₀.confidence_score = true
            then { f₁ with superseded_by := some g₀.id } else f₁)) ∧
      ((buildNewFacts st.nextId now src embeds
            (stageCandidates sim now st.facts cands).pending).find?
              (fun nf => _same_slot f nf.category nf.slot_hint) = none →
        lookupId (extract_facts_commit sim now st cands embeds src).facts f.id =
          some f₁) := by
  have hP : (stageCandidates sim now st.facts cands).pending =
      (cands.filter (stagedPred sim (existingSnapshot st.facts))).map stagedOf := by
    unfold stageCandidates
    simpa using stageFold_pending sim now (existingSnapshot st.facts) cands
      ⟨st.facts, [], []⟩
  have hQ : (stageCandidates sim now st.facts cands).queue =
      (cands.filter (stagedPred sim (existingSnapshot st.facts))).flatMap
        (queueOf (existingSnapshot st.facts)) := by
    unfold stageCandidates
    simpa using stageFold_queue sim now (existingSnapshot st.facts) cands
      ⟨st.facts, [], []⟩
  have hstage : (stageCandidates sim now st.facts cands).facts.map stripMutable =
      st.facts.map stripMutable := by
    unfold stageCandidates
    exact stageFold_facts_strip sim now (existingSnapshot st.facts) cands
      ⟨st.facts, [], []⟩
  have ha : lookupId st.facts f.id = some f := lookupId_self_of_nodup hnodup hf
  obtain ⟨f₁, hlook1, hstripeq⟩ :=
    lookupId_of_map_eq stripMutable (fun x => rfl) hstage.symm ha
  have hid1 : f₁.id = f.id := by
    have := congrArg MemoryFact.id hstripeq
    simpa [stripMutable] using this
  have hcat1 : f₁.category = f.category := by
    have := congrArg MemoryFact.category hstripeq
    simpa [stripMutable] using this
  have hslot1 : f₁.slot_hint = f.slot_hint := by
    have := congrArg MemoryFact.slot_hint hstripeq
    simpa [stripMutable] using this
  have hfsnap : f ∈ existingSnapshot st.facts :=
    List.mem_filter.mpr ⟨hf, by simp [hexp]⟩
  have hlam : (fun nf : MemoryFact => _same_slot f₁ nf.category nf.slot_hint) =
      (fun nf : MemoryFact => _same_slot f nf.category nf.slot_hint) := by
    funext nf
    simp only [_same_slot, hcat1, hslot1]
  have hcommit : (extract_facts_commit sim now st cands embeds src).facts =
      (stageCandidates sim now st.facts cands).queue.foldl
        (supersedeStep (buildNewFacts st.nextId now src embeds
          (stageCandidates sim now st.facts cands).pending))
        ((stageCandidates sim now st.facts cands).facts ++
          buildNewFacts st.nextId now src embeds
            (stageCandidates sim now st.facts cands).pending) := rfl
  have hcur2 : lookupId ((stageCandidates sim now st.facts cands).facts ++
      buildNewFacts st.nextId now src embeds
        (stageCandidates sim now st.facts cands).pending) f.id = some f₁ :=
    lookupId_append_left hlook1
  refine ⟨f₁, hlook1, hstripeq, ?_, ?_, ?_⟩
  · constructor
    · intro hmem
      rw [hQ] at hmem
      obtain ⟨c, hcfilter, hcq⟩ := List.mem_flatMap.mp hmem
      unfold queueOf at hcq
      by_cases hsupc : _supersedable_category c.category = true
      · rw [if_pos hsupc] at hcq
        obtain ⟨f', hf'filter, hf'id⟩ := List.mem_map.mp hcq
        have hf'mem := List.mem_filter.mp hf'filter
        have hf'snap := hf'mem.1
        have hsame' : _same_slot f' c.category c.slot_hint = true := hf'mem.2
        have hf'st : f' ∈ st.facts := (List.mem_filter.mp hf'snap).1
        have hff' : f' = f := eq_of_id_eq_of_nodup hnodup hf'st hf hf'id
        subst hff'
        have hcatc : f'.category = c.category :=
          (of_decide_eq_true hsame').1
        refine ⟨by rw [hcatc]; exact hsupc, stagedOf c, ?_, ?_⟩
        · rw [hP]
          exact List.mem_map_of_mem _ hcfilter
        · exact hsame'
      · rw [if_neg hsupc] at hcq
        cases hcq
    · rintro ⟨hsupf, c', hc'mem, hsame⟩
      rw [hP] at hc'mem
      obtain ⟨c, hcfilter, hceq⟩ := List.mem_map.mp hc'mem
      have hcatc : c'.category = c.category := by rw [← hceq]; rfl
      have hslotc : c'.slot_hint = c.slot_hint := by rw [← hceq]; rfl
      have hfcat : f.category = c'.category := (of_decide_eq_true hsame).1
      rw [hQ]
      refine List.mem_flatMap.mpr ⟨c, hcfilter, ?_⟩
      unfold queueOf
      rw [if_pos (by rw [← hcatc, ← hfcat]; exact hsupf)]
      refine List.mem_map.mpr ⟨f, List.mem_filter.mpr ⟨hfsnap, ?_⟩, rfl⟩
      rw [show _same_slot f c.category c.slot_hint =
        _same_slot f c'.category c'.slot_hint by rw [hcatc, hslotc]]
      exact hsame
  · intro g₀ hfind
    rw [hcommit]
    exact supersedeFold_lookup_pristine _ _ _ f.id f₁ g₀
      (by rw [hlam]; exact hfind) hid1 hcur2
  · intro hfind
    rw [hcommit]
    exact supersedeFold_lookup_nofind _ _ _ f.id f₁
      (by rw [hlam]; exact hfind) hid1 hcur2

/-- Claim C2 (amended): during an extraction commit, an existing non-expired
fact `f` is queued for supersession iff some staged fact of supersedable
category occupies its slot; its `superseded_by` is then decided against the
FIRST staged fact `g₀` in its slot only — set to `g₀.id` when
`g₀.confidence ≥ f.confidence − 0.15` (`f`'s possibly-refreshed confidence)
or `f` was already superseded, and left unchanged otherwise (even when a
LATER staged slot-mate would satisfy the confidence band).  In particular a
fact whose non-null slot hint differs from every staged fact's non-null
slot hint is never queued and never superseded. -/
theorem C2_supersession_first_staged (sim : String → String → ℚ) (now : Int)
    (st : ExtractState) (cands : List ExtractedFact)
    (embeds : List (Option (List ℚ))) (src : Option Nat)
    (hnodup : (st.facts.map (fun f => f.id)).Nodup)
    (f : MemoryFact) (hf : f ∈ st.facts) (hexp : f.expires_at = none) :
    ∃ f₁, lookupId (stageCandidates sim now st.facts cands).facts f.id = some f₁ ∧
      stripMutable f₁ = stripMutable f ∧
      (f.id ∈ (stageCandidates sim now st.facts cands).queue ↔
        (_supersedable_category f.category = true ∧
          ∃ c ∈ (stageCandidates sim now st.facts cands).pending,
            _same_slot f c.category c.slot_hint = true)) ∧
      (∀ g₀, (buildNewFacts st.nextId now src embeds
            (stageCandidates sim now st.facts cands).pending).find?
              (fun nf => _same_slot f nf.category nf.slot_hint) = some g₀ →
        lookupId (extract_facts_commit sim now st cands embeds src).facts f.id =
          some (if f.id ∈ (stageCandidates sim now st.facts cands).queue ∧
              _should_supersede f₁ g₀.confidence_score = true
            then { f₁ with superseded_by := some g₀.id } else f₁)) ∧
      ((buildNewFacts st.nextId now src embeds
            (stageCandidates sim now st.facts cands).pending).find?
              (fun nf => _same_slot f nf.category nf.slot_hint) = none →
        lookupId (extract_facts_commit sim now st cands embeds src).facts f.id =
          some f₁) :=
  extract_supersession_char sim now st cands embeds src hnodup f hf hexp

/-- Claim C2 (counterexample): with the legacy no-slot `"Works at Google"`
fact and the staged candidates `[role (conf 0.5), employer (conf 0.9)]`,
the staged employer fact shares the legacy fact's slot and satisfies the
claim's confidence band, yet the commit leaves the legacy fact's
`superseded_by` as `none` — the code checked the band only against the
first staged slot-mate (the low-confidence role fact). -/
theorem C2_counterexample_not_superseded :
    (∃ c ∈ (stageCandidates simEq 100 [employerFact] [roleCand, employerCand]).pending,
        _supersedable_category c.category = true ∧
        _same_slot employerFact c.category c.slot_hint = true ∧
        c.confidence ≥ employerFact.confidence_score - 0.15) ∧
      (lookupId (extract_facts_commit simEq 100 ⟨[employerFact], 2⟩
          [roleCand, employerCand] [none, none] none).facts employerFact.id).map
        (fun g => g.superseded_by) = some none := by
  have hconf1 : ¬ (roleCand.confidence < MIN_CONFIDENCE_TO_SAVE) := by
    norm_num [roleCand, MIN_CONFIDENCE_TO_SAVE]
  have hconf2 : ¬ (employerCand.confidence < MIN_CONFIDENCE_TO_SAVE) := by
    norm_num [employerCand, MIN_CONFIDENCE_TO_SAVE]
  have hstep1 : stageStep simEq 100 (existingSnapshot [employerFact])
      ⟨[employerFact], [], []⟩ roleCand = ⟨[employerFact], [stagedOf roleCand], [1]⟩ := by
    unfold stageStep
    rw [if_neg hconf1]
    rfl
  have hstep2 : stageStep simEq 100 (existingSnapshot [employerFact])
      ⟨[employerFact], [stagedOf roleCand], [1]⟩ employerCand =
      ⟨[employerFact], [stagedOf roleCand, stagedOf employerCand], [1, 1]⟩ := by
    unfold stageStep
    rw [if_neg hconf2]
    rfl
  have hacc : stageCandidates simEq 100 [employerFact] [roleCand, employerCand] =
      ⟨[employerFact], [stagedOf roleCand, stagedOf employerCand], [1, 1]⟩ := by
    unfold stageCandidates
    rw [List.foldl_cons, hstep1, List.foldl_cons, hstep2, List.foldl_nil]
  constructor
  · refine ⟨stagedOf employerCand, ?_, by decide, by decide, ?_⟩
    · rw [hacc]
      simp
    · norm_num [stagedOf, employerCand, employerFact]
  · obtain ⟨f₁, hlook1, hstrip, hqiff, hsome, hnone⟩ :=
      extract_supersession_char simEq 100 ⟨[employerFact], 2⟩ [roleCand, employerCand]
        [none, none] none (by decide) employerFact (by simp) rfl
    have hf₁ : f₁ = employerFact := by
      rw [hacc] at hlook1
      have : lookupId [employerFact] employerFact.id = some employerFact := rfl
      rw [this] at hlook1
      exact (Option.some.injEq _ _ ▸ hlook1 : employerFact = f₁).symm
    subst hf₁
    have hfind : (buildNewFacts (2 : Nat) 100 none [none, none]
        (stageCandidates simEq 100 [employerFact] [roleCand, employerCand]).pending).find?
          (fun nf => _same_slot employerFact nf.category nf.slot_hint) =
        some { id := 2, user_id := 0, category := .work_context,
               content := "is a junior engineer", confidence_score := 0.5,
               slot_hint := some "role", temporal_state := .current,
               is_essential := false, source_message_id := none,
               superseded_by := none, expires_at := none, created_at := 100,
               last_refreshed_at := 100, embedding := none } := by
      rw [hacc]
      rfl
    have hres := hsome _ hfind
    have hss : _should_supersede employerFact (0.5 : ℚ) = false := by
      unfold _should_supersede
      rw [if_neg (by simp [employerFact])]
      norm_num [employerFact]
    rw [hacc] at hres
    rw [if_neg (by
      rintro ⟨-, hcontr⟩
      rw [hss] at hcontr
      cases hcontr)] at hres
    rw [hres]
    rfl

/-- Claim C2 (witness): a single staged employer fact with confidence 0.9
does supersede the legacy employer fact (confidence 0.8, within the 0.15
band): its `superseded_by` is set to the new row's id. -/
theorem C2_witness_supersedes :
    lookupId (extract_facts_commit simEq 100 ⟨[employerFact], 2⟩
        [employerCand] [none] none).facts employerFact.id =
      some { employerFact with superseded_by := some 2 } := by
  have hconf2 : ¬ (employerCand.confidence < MIN_CONFIDENCE_TO_SAVE) := by
    norm_num [employerCand, MIN_CONFIDENCE_TO_SAVE]
  have hstep : stageStep simEq 100 (existingSnapshot [employerFact])
      ⟨[employerFact], [], []⟩ employerCand =
      ⟨[employerFact], [stagedOf employerCand], [1]⟩ := by
    unfold stageStep
    rw [if_neg hconf2]
    rfl
  have hacc : stageCandidates simEq 100 [employerFact] [employerCand] =
      ⟨[employerFact], [stagedOf employerCand], [1]⟩ := by
    unfold stageCandidates
    rw [List.foldl_cons, hstep, List.foldl_nil]
  obtain ⟨f₁, hlook1, hstrip, hqiff, hsome, hnone⟩ :=
    C2_supersession_first_staged simEq 100 ⟨[employerFact], 2⟩ [employerCand]
      [none] none (by decide) employerFact (by simp) rfl
  have hf₁ : f₁ = employerFact := by
    rw [hacc] at hlook1
    have : lookupId [employerFact] employerFact.id = some employerFact := rfl
    rw [this] at hlook1
    exact (Option.some.injEq _ _ ▸ hlook1 : employerFact = f₁).symm
  subst hf₁
  have hfind : (buildNewFacts (2 : Nat) 100 none [none]
      (stageCandidates simEq 100 [employerFact] [employerCand]).pending).find?
        (fun nf => _same_slot employerFact nf.category nf.slot_hint) =
      some { id := 2, user_id := 0, category := .work_context,
             content := "Works at OpenAI", confidence_score := 0.9,
             slot_hint := some "employer", temporal_state := .current,
             is_essential := false, source_message_id := none,
             superseded_by := none, expires_at := none, created_at := 100,
             last_refreshed_at := 100, embedding := none } := by
    rw [hacc]
    rfl
  have hres := hsome _ hfind
  have hss : _should_supersede employerFact (0.9 : ℚ) = true := by
    unfold _should_supersede
    rw [if_neg (by simp [employerFact])]
    norm_num [employerFact]
  rw [hacc] at hres
  rw [if_pos (by exact ⟨by decide, hss⟩)] at hres
  exact hres

/-- The merge key is reflexive. -/
theorem keyGE_refl (a : MemoryFact) : keyGE a a = true := by
  simp [keyGE]

/-- Totality of the inner (confidence, created_at) lexicographic key. -/
theorem lexQI_total (ca cb : ℚ) (ta tb : Int) :
    (if ca ≠ cb then decide (cb < ca) else decide (tb ≤ ta)) = true ∨
      (if cb ≠ ca then decide (ca < cb) else decide (ta ≤ tb)) = true := by
  by_cases h : ca = cb
  · rw [if_neg (by simp [h]), if_neg (by simp [h])]
    rcases le_total ta tb with ht | ht
    · exact Or.inr (decide_eq_true ht)
    · exact Or.inl (decide_eq_true ht)
  · rw [if_pos h, if_pos (Ne.symm h)]
    rcases lt_or_gt_of_ne h with hlt | hlt
    · exact Or.inr (decide_eq_true hlt)
    · exact Or.inl (decide_eq_true hlt)

/-- Transitivity of the inner (confidence, created_at) lexicographic key. -/
theorem lexQI_trans (ca cb cc : ℚ) (ta tb tc : Int)
    (hab : (if ca ≠ cb then decide (cb < ca) else decide (tb ≤ ta)) = true)
    (hbc : (if cb ≠ cc then decide (cc < cb) else decide (tc ≤ tb)) = true) :
    (if ca ≠ cc then decide (cc < ca) else decide (tc ≤ ta)) = true := by
  by_cases h1 : ca = cb
  · rw [if_neg (by simp [h1])] at hab
    by_cases h2 : cb = cc
    · rw [if_neg (by simp [h2])] at hbc
      rw [if_neg (by simp [h1.trans h2])]
      exact decide_eq_true (le_trans (of_decide_eq_true hbc) (of_decide_eq_true hab))
    · rw [if_pos h2] at hbc
      have hlt : cc < ca := h1 ▸ of_decide_eq_true hbc
      rw [if_pos hlt.ne']
      exact decide_eq_true hlt
  · rw [if_pos h1] at hab
    by_cases h2 : cb = cc
    · have hlt : cc < ca := h2 ▸ of_decide_eq_true hab
      rw [if_pos hlt.ne']
      exact decide_eq_true hlt
    · rw [if_pos h2] at hbc
      have hlt : cc < ca := lt_trans (of_decide_eq_true hbc) (of_decide_eq_true hab)
      rw [if_pos hlt.ne']
      exact decide_eq_true hlt

/-- The merge key is total. -/
theorem keyGE_total (a b : MemoryFact) : keyGE a b = true ∨ keyGE b a = true := by
  unfold keyGE
  cases hA : a.is_essential <;> cases hB : b.is_essential
  · rw [if_neg (show ¬ ((false : Bool) ≠ false) by decide),
      if_neg (show ¬ ((false : Bool) ≠ false) by decide)]
    exact lexQI_total _ _ _ _
  · refine Or.inr ?_
    rw [if_pos (show (true : Bool) ≠ false by decide)]
  · refine Or.inl ?_
    rw [if_pos (show (true : Bool) ≠ false by decide)]
  · rw [if_neg (show ¬ ((true : Bool) ≠ true) by decide),
      if_neg (show ¬ ((true : Bool) ≠ true) by decide)]
    exact lexQI_total _ _ _ _

/-- The merge key is transitive. -/
theorem keyGE_trans (a b c : MemoryFact) (hab : keyGE a b = true)
    (hbc : keyGE b c = true) : keyGE a c = true := by
  unfold keyGE at *
  cases hA : a.is_essential <;> cases hB : b.is_essential <;> cases hC : c.is_essential
  · rw [hA, hB] at hab
    rw [hB, hC] at hbc
    rw [if_neg (show ¬ ((false : Bool) ≠ false) by decide)] at hab hbc ⊢
    exact lexQI_trans _ _ _ _ _ _ hab hbc
  · rw [hB, hC, if_pos (show (false : Bool) ≠ true by decide)] at hbc
    exact absurd hbc (by decide)
  · rw [hA, hB, if_pos (show (false : Bool) ≠ true by decide)] at hab
    exact absurd hab (by decide)
  · rw [hA, hB, if_pos (show (false : Bool) ≠ true by decide)] at hab
    exact absurd hab (by decide)
  · rw [if_pos (show (true : Bool) ≠ false by decide)]
  · rw [hB, hC, if_pos (show (false : Bool) ≠ true by decide)] at hbc
    exact absurd hbc (by decide)
  · rw [if_pos (show (true : Bool) ≠ false by decide)]
  · rw [hA, hB] at hab
    rw [hB, hC] at hbc
    rw [if_neg (show ¬ ((true : Bool) ≠ true) by decide)] at hab hbc ⊢
    exact lexQI_trans _ _ _ _ _ _ hab hbc

/-- Stable insertion is a permutation of consing. -/
theorem insSorted_perm {α : Type} (leB : α → α → Bool) (a : α) (l : List α) :
    (insSorted leB a l).Perm (a :: l) := by
  induction l with
  | nil => exact List.Perm.refl _
  | cons b bs ih =>
    unfold insSorted
    by_cases h : leB b a = true
    · rw [if_pos h]
      exact (ih.cons b).trans (List.Perm.swap a b bs)
    · rw [if_neg h]

/-- The stable sort is a permutation of its input. -/
theorem stableSort_perm {α : Type} (leB : α → α → Bool) (l : List α) :
    (stableSort leB l).Perm l := by
  have key : ∀ (l acc : List α),
      (l.foldl (fun acc a => insSorted leB a acc) acc).Perm (acc ++ l) := by
    intro l
    induction l with
    | nil => intro acc; simp
    | cons x xs ih =>
      intro acc
      rw [List.foldl_cons]
      refine (ih (insSorted leB x acc)).trans ?_
      have h1 : (insSorted leB x acc ++ xs).Perm ((x :: acc) ++ xs) :=
        (insSorted_perm leB x acc).append_right xs
      refine h1.trans ?_
      simpa using List.perm_middle.symm
  simpa using key l []

/-- Stable insertion preserves sortedness for a total transitive key. -/
theorem insSorted_pairwise {α : Type} (leB : α → α → Bool)
    (htot : ∀ a b, leB a b = true ∨ leB b a = true)
    (htrans : ∀ a b c, leB a b = true → leB b c = true → leB a c = true)
    (a : α) (l : List α) (hl : l.Pairwise (fun x y => leB x y = true)) :
    (insSorted leB a l).Pairwise (fun x y => leB x y = true) := by
  induction l with
  | nil => simp [insSorted]
  | cons b bs ih =>
    rcases List.pairwise_cons.mp hl with ⟨hb, hbs⟩
    unfold insSorted
    by_cases h : leB b a = true
    · rw [if_pos h]
      refine List.pairwise_cons.mpr ⟨?_, ih hbs⟩
      intro x hx
      rcases List.mem_cons.mp (((insSorted_perm leB a bs).mem_iff).mp hx) with rfl | hxbs
      · exact h
      · exact hb x hxbs
    · rw [if_neg h]
      have hab : leB a b = true := (htot a b).resolve_right (fun hba => h hba)
      refine List.pairwise_cons.mpr ⟨?_, hl⟩
      intro x hx
      rcases List.mem_cons.mp hx with rfl | hxbs
      · exact hab
      · exact htrans a b x hab (hb x hxbs)

/-- The stable sort is sorted for a total transitive key. -/
theorem stableSort_pairwise {α : Type} (leB : α → α → Bool)
    (htot : ∀ a b, leB a b = true ∨ leB b a = true)
    (htrans : ∀ a b c, leB a b = true → leB b c = true → leB a c = true)
    (l : List α) :
    (stableSort leB l).Pairwise (fun x y => leB x y = true) := by
  have key : ∀ (l acc : List α), acc.Pairwise (fun x y => leB x y = true) →
      (l.foldl (fun acc a => insSorted leB a acc) acc).Pairwise
        (fun x y => leB x y = true) := by
    intro l
    induction l with
    | nil => intro acc h; simpa using h
    | cons x xs ih =>
      intro acc h
      rw [List.foldl_cons]
      exact ih _ (insSorted_pairwise leB htot htrans x acc h)
  exact key l [] (by simp)

/-- The first-seen dedup fold (over the images of a key function) produces a
list without duplicates. -/
theorem dedupFold_nodup {α β : Type} [DecidableEq β] (key : α → β) (l : List α)
    (acc : List β) (hacc : acc.Nodup) :
    (l.foldl (fun acc i =>
        if acc.contains (key i) then acc else acc ++ [key i]) acc).Nodup := by
  induction l generalizing acc with
  | nil => exact hacc
  | cons x xs ih =>
    rw [List.foldl_cons]
    by_cases h : acc.contains (key x) = true
    · rw [if_pos h]
      exact ih acc hacc
    · rw [if_neg h]
      refine ih _ ?_
      rw [List.nodup_append]
      refine ⟨hacc, List.nodup_singleton (key x), ?_⟩
      intro a ha hmem
      have hax : a = key x := by simpa using hmem
      subst hax
      exact h (by simpa using ha)

/-- A merge loop step never touches rows outside the member's id. -/
theorem mergeStep_lookup_ne (w : MemoryFact) (acc : List MemoryFact)
    (mem : MemoryFact) (i : Nat) (h : i ≠ mem.id) :
    lookupId (mergeStep w acc mem) i = lookupId acc i := by
  cases hl : lookupId acc mem.id with
  | none => simp [mergeStep, hl]
  | some cur =>
    by_cases hs : cur.superseded_by = none
    · have hcurid : cur.id = mem.id := by
        have := List.find?_some hl
        simpa using this
      simp only [mergeStep, hl, if_pos hs]
      exact lookupId_updateById_ne acc mem.id i _ (fun x => rfl) h
    · simp [mergeStep, hl, hs]

/-- The merge loop never touches rows outside the rest's ids. -/
theorem mergeFold_untouched (w : MemoryFact) (rest : List MemoryFact)
    (fs : List MemoryFact) (i : Nat) (h : ∀ m ∈ rest, i ≠ m.id) :
    lookupId (rest.foldl (mergeStep w) fs) i = lookupId fs i := by
  induction rest generalizing fs with
  | nil => rfl
  | cons m ms ih =>
    rw [List.foldl_cons]
    rw [ih _ (fun m' hm' => h m' (List.mem_cons_of_mem m hm'))]
    exact mergeStep_lookup_ne w fs m i (h m (List.mem_cons_self m ms))

/-- The merge loop sets `superseded_by := winner.id` on every still-active
member (with pairwise-distinct ids), leaving all other rows alone. -/
theorem mergeFold_lookup_mem (w : MemoryFact) (rest : List MemoryFact)
    (fs : List MemoryFact)
    (hpair : rest.Pairwise (fun a b => a.id ≠ b.id))
    (hpr : ∀ m ∈ rest, lookupId fs m.id = some m ∧ m.superseded_by = none) :
    ∀ m ∈ rest, lookupId (rest.foldl (mergeStep w) fs) m.id =
      some { m with superseded_by := some w.id } := by
  induction rest generalizing fs with
  | nil => intro m hm; cases hm
  | cons m ms ih =>
    rcases List.pairwise_cons.mp hpair with ⟨hm_ne, hms_pair⟩
    obtain ⟨hm_look, hm_sup⟩ := hpr m (List.mem_cons_self m ms)
    have hstep : mergeStep w fs m =
        updateById fs m.id (fun f => { f with superseded_by := some w.id }) := by
      simp only [mergeStep, hm_look, if_pos hm_sup]
    have hafter : lookupId (mergeStep w fs m) m.id =
        some { m with superseded_by := some w.id } := by
      rw [hstep, lookupId_updateById fs m.id
        (fun f => { f with superseded_by := some w.id }) (fun x => rfl), hm_look]
      rfl
    have hothers : ∀ m' ∈ ms,
        lookupId (mergeStep w fs m) m'.id = some m' ∧ m'.superseded_by = none := by
      intro m' hm'
      have hne : m'.id ≠ m.id := fun he => hm_ne m' hm' he.symm
      rw [mergeStep_lookup_ne w fs m m'.id hne]
      exact hpr m' (List.mem_cons_of_mem m hm')
    intro x hx
    rw [List.foldl_cons]
    rcases List.mem_cons.mp hx with rfl | hxms
    · rw [mergeFold_untouched w ms _ x.id (fun m' hm' => hm_ne m' hm')]
      exact hafter
    · exact ih _ hms_pair hothers x hxms

/-- The sorted cluster is a permutation of the cluster. -/
theorem sortCluster_perm (cluster : List MemoryFact) :
    (sortCluster cluster).Perm cluster :=
  stableSort_perm keyGE cluster

/-- `_find_semantic_duplicate_clusters` unfolded into its guard, its cluster
grouping and its size filter. -/
theorem find_clusters_def (cos : List ℚ → List ℚ → ℚ) (facts : List MemoryFact)
    (threshold : ℚ) :
    _find_semantic_duplicate_clusters cos facts threshold =
      (if (facts.filter (fun f => decide (f.embedding ≠ none))).length < 2 then []
       else ((clustersOf (facts.filter (fun f => decide (f.embedding ≠ none)))
          (clusterRoot cos threshold
            (facts.filter (fun f => decide (f.embedding ≠ none))))).filter
        (fun cluster => decide (cluster.length ≥ 2)))) := rfl

/-- With pairwise-distinct ids, reads at distinct indices have distinct ids. -/
theorem getD_id_ne (l : List MemoryFact)
    (hnd : (l.map (fun f => f.id)).Nodup)
    (i j : Nat) (hi : i < l.length) (hj : j < l.length) (hij : i ≠ j) :
    (l.getD i default).id ≠ (l.getD j default).id := by
  rw [List.getD_eq_getElem l default hi, List.getD_eq_getElem l default hj]
  intro he
  apply hij
  have hi' : i < (l.map (fun f => f.id)).length := by simpa using hi
  have hj' : j < (l.map (fun f => f.id)).length := by simpa using hj
  have hmap : (l.map (fun f => f.id)).get ⟨i, hi'⟩ =
      (l.map (fun f => f.id)).get ⟨j, hj'⟩ := by
    simp only [List.get_eq_getElem, List.getElem_map]
    exact he
  have := (List.Nodup.get_inj_iff hnd).mp hmap
  simpa using congrArg Fin.val this

/-- Mapping distinct in-range indices through a read of an id-nodup list
gives pairwise-distinct ids. -/
theorem pairwise_getD_ids (l : List MemoryFact)
    (hnd : (l.map (fun f => f.id)).Nodup)
    (idxs : List Nat) (hlt : ∀ i ∈ idxs, i < l.length) (hidx : idxs.Nodup) :
    (idxs.map (fun i => l.getD i default)).Pairwise (fun a b => a.id ≠ b.id) := by
  rw [List.pairwise_map]
  refine List.Pairwise.imp_of_mem ?_ hidx
  intro a b ha hb hab
  exact getD_id_ne l hnd a b (hlt a ha) (hlt b hb) hab

/-- Every grouped cluster consists of members of the filtered list and has
pairwise-distinct ids. -/
theorem clustersOf_mem_spec (fwe : List MemoryFact) (root : Nat → Nat)
    (hnd : (fwe.map (fun f => f.id)).Nodup) :
    ∀ c ∈ clustersOf fwe root,
      (∀ m ∈ c, m ∈ fwe) ∧ c.Pairwise (fun a b => a.id ≠ b.id) := by
  intro c hc
  rcases List.mem_map.mp hc with ⟨r, _, rfl⟩
  constructor
  · intro m hm
    rcases List.mem_map.mp hm with ⟨i, hi, rfl⟩
    have hi' : i < fwe.length := List.mem_range.mp (List.mem_filter.mp hi).1
    rw [List.getD_eq_getElem fwe default hi']
    exact List.getElem_mem hi'
  · refine pairwise_getD_ids fwe hnd _ ?_ ?_
    · intro i hi
      exact List.mem_range.mp (List.mem_filter.mp hi).1
    · exact List.Nodup.filter _ (List.nodup_range _)

/-- Distinct grouped clusters have disjoint id sets. -/
theorem clustersOf_disjoint (fwe : List MemoryFact) (root : Nat → Nat)
    (hnd : (fwe.map (fun f => f.id)).Nodup) :
    (clustersOf fwe root).Pairwise
      (fun c₁ c₂ => ∀ m₁ ∈ c₁, ∀ m₂ ∈ c₂, m₁.id ≠ m₂.id) := by
  unfold clustersOf
  rw [List.pairwise_map]
  have hro : (rootOrderOf root fwe.length).Nodup :=
    dedupFold_nodup root (List.range fwe.length) [] List.nodup_nil
  refine List.Pairwise.imp ?_ hro
  intro r s hrs m₁ hm₁ m₂ hm₂
  rcases List.mem_map.mp hm₁ with ⟨i, hi, rfl⟩
  rcases List.mem_map.mp hm₂ with ⟨j, hj, rfl⟩
  have hiF := List.mem_filter.mp hi
  have hjF := List.mem_filter.mp hj
  have hir : root i = r := by simpa using hiF.2
  have hjs : root j = s := by simpa using hjF.2
  have hij : i ≠ j := by
    intro he
    exact hrs (by rw [← hir, ← hjs, he])
  exact getD_id_ne fwe hnd i j (List.mem_range.mp hiF.1) (List.mem_range.mp hjF.1) hij

/-- Every reported cluster has at least two members, all of them loaded facts
with embeddings, with pairwise-distinct ids. -/
theorem find_clusters_spec (cos : List ℚ → List ℚ → ℚ) (facts : List MemoryFact)
    (threshold : ℚ) (hnd : (facts.map (fun f => f.id)).Nodup) :
    ∀ c ∈ _find_semantic_duplicate_clusters cos facts threshold,
      2 ≤ c.length ∧ (∀ m ∈ c, m ∈ facts ∧ m.embedding ≠ none) ∧
        c.Pairwise (fun a b => a.id ≠ b.id) := by
  intro c hc
  rw [find_clusters_def] at hc
  by_cases hlen : (facts.filter (fun f => decide (f.embedding ≠ none))).length < 2
  · rw [if_pos hlen] at hc
    cases hc
  · rw [if_neg hlen] at hc
    rcases List.mem_filter.mp hc with ⟨hc', hclen⟩
    have hndf : ((facts.filter (fun f => decide (f.embedding ≠ none))).map
        (fun f => f.id)).Nodup :=
      List.Nodup.sublist (List.Sublist.map _ (List.filter_sublist _)) hnd
    obtain ⟨hmem, hpair⟩ := clustersOf_mem_spec _ _ hndf c hc'
    refine ⟨by simpa using hclen, ?_, hpair⟩
    intro m hm
    have hmf := List.mem_filter.mp (hmem m hm)
    exact ⟨hmf.1, by simpa using hmf.2⟩

/-- Distinct reported clusters have disjoint id sets. -/
theorem find_clusters_disjoint (cos : List ℚ → List ℚ → ℚ)
    (facts : List MemoryFact) (threshold : ℚ)
    (hnd : (facts.map (fun f => f.id)).Nodup) :
    (_find_semantic_duplicate_clusters cos facts threshold).Pairwise
      (fun c₁ c₂ => ∀ m₁ ∈ c₁, ∀ m₂ ∈ c₂, m₁.id ≠ m₂.id) := by
  rw [find_clusters_def]
  by_cases hlen : (facts.filter (fun f => decide (f.embedding ≠ none))).length < 2
  · rw [if_pos hlen]
    exact List.Pairwise.nil
  · rw [if_neg hlen]
    have hndf : ((facts.filter (fun f => decide (f.embedding ≠ none))).map
        (fun f => f.id)).Nodup :=
      List.Nodup.sublist (List.Sublist.map _ (List.filter_sublist _)) hnd
    exact List.Pairwise.sublist (List.filter_sublist _) (clustersOf_disjoint _ _ hndf)

/-- A cluster merge never touches rows outside the cluster's ids. -/
theorem mergeCluster_untouched (fs c : List MemoryFact) (i : Nat)
    (h : ∀ m ∈ c, i ≠ m.id) :
    lookupId (_merge_duplicate_cluster fs c) i = lookupId fs i := by
  unfold _merge_duplicate_cluster
  cases hs : sortCluster c with
  | nil => rfl
  | cons w rest =>
    refine mergeFold_untouched w rest fs i ?_
    intro m hm
    refine h m ?_
    have hms : m ∈ sortCluster c := by
      rw [hs]
      exact List.mem_cons_of_mem w hm
    exact (sortCluster_perm c).mem_iff.mp hms

/-- A fold of cluster merges never touches rows outside the clusters' ids. -/
theorem clustersFold_untouched (cls : List (List MemoryFact))
    (fs : List MemoryFact) (i : Nat)
    (h : ∀ c ∈ cls, ∀ m ∈ c, i ≠ m.id) :
    lookupId (cls.foldl _merge_duplicate_cluster fs) i = lookupId fs i := by
  induction cls generalizing fs with
  | nil => rfl
  | cons c₀ cs ih =>
    rw [List.foldl_cons]
    rw [ih _ (fun c' hc' => h c' (List.mem_cons_of_mem c₀ hc'))]
    exact mergeCluster_untouched fs c₀ i (h c₀ (List.mem_cons_self c₀ cs))

/-- The fold of cluster merges over disjoint clusters of still-active rows
keeps every sorted head active and supersedes every other member by it. -/
theorem clustersFold_characterize (cls : List (List MemoryFact)) :
    ∀ fs : List MemoryFact,
      cls.Pairwise (fun c₁ c₂ => ∀ m₁ ∈ c₁, ∀ m₂ ∈ c₂, m₁.id ≠ m₂.id) →
      (∀ c ∈ cls, c.Pairwise (fun a b => a.id ≠ b.id)) →
      (∀ c ∈ cls, ∀ m ∈ c, lookupId fs m.id = some m ∧ m.superseded_by = none) →
      ∀ c ∈ cls, ∀ w rest, sortCluster c = w :: rest →
        lookupId (cls.foldl _merge_duplicate_cluster fs) w.id = some w ∧
        ∀ m ∈ rest, lookupId (cls.foldl _merge_duplicate_cluster fs) m.id =
          some { m with superseded_by := some w.id } := by
  induction cls with
  | nil =>
    intro fs _ _ _ c hc
    cases hc
  | cons c₀ cs ih =>
    intro fs hdisj hpairc hpr c hcmem w rest hsort
    rcases List.pairwise_cons.mp hdisj with ⟨hd0, hdcs⟩
    rw [List.foldl_cons]
    rcases List.mem_cons.mp hcmem with rfl | hcs
    · have hperm := sortCluster_perm c
      have hsub : ∀ m ∈ w :: rest, m ∈ c := by
        intro m hm
        refine hperm.mem_iff.mp ?_
        rw [hsort]
        exact hm
      have hpair0 : (w :: rest).Pairwise (fun a b => a.id ≠ b.id) := by
        rw [← hsort]
        exact (hperm.pairwise_iff (fun h => Ne.symm h)).mpr
          (hpairc c (List.mem_cons_self c cs))
      rcases List.pairwise_cons.mp hpair0 with ⟨hw_ne, hrest_pair⟩
      have hwc : w ∈ c := hsub w (List.mem_cons_self w rest)
      have hpr0 : ∀ m ∈ rest, lookupId fs m.id = some m ∧ m.superseded_by = none :=
        fun m hm => hpr c (List.mem_cons_self c cs) m (hsub m (List.mem_cons_of_mem w hm))
      have hmergeEq : _merge_duplicate_cluster fs c = rest.foldl (mergeStep w) fs := by
        unfold _merge_duplicate_cluster
        rw [hsort]
      constructor
      · rw [clustersFold_untouched cs _ w.id
          (fun c' hc' m hm => hd0 c' hc' w hwc m hm)]
        rw [hmergeEq]
        rw [mergeFold_untouched w rest fs w.id hw_ne]
        exact (hpr c (List.mem_cons_self c cs) w hwc).1
      · intro m hm
        rw [clustersFold_untouched cs _ m.id
          (fun c' hc' m' hm' => hd0 c' hc' m (hsub m (List.mem_cons_of_mem w hm)) m' hm')]
        rw [hmergeEq]
        exact mergeFold_lookup_mem w rest fs hrest_pair hpr0 m hm
    · refine ih _ hdcs (fun c' hc' => hpairc c' (List.mem_cons_of_mem c₀ hc')) ?_
        c hcs w rest hsort
      intro c' hc' m hm
      rw [mergeCluster_untouched fs c₀ m.id
        (fun m0 hm0 => Ne.symm (hd0 c' hc' m0 hm0 m hm))]
      exact hpr c' (List.mem_cons_of_mem c₀ hc') m hm

/-- C6: consolidation's semantic merge. Over a loaded batch of active facts
(pairwise-distinct ids, `superseded_by IS NULL`, as `consolidate_user_memory`
loads them), every cluster reported by `_find_semantic_duplicate_clusters`
has at least two members, all loaded facts with embeddings; the cluster sorted
by `(is_essential, confidence_score, created_at)` descending is a permutation
of it; and for its head `winner` (which is maximal for that key), after all
cluster merges the winner's row is unchanged (still active) while every other
member's row gets `superseded_by = winner.id`. -/
theorem C6_consolidation_cluster_merge (cos : List ℚ → List ℚ → ℚ)
    (allFacts : List MemoryFact)
    (hnd : (allFacts.map (fun f => f.id)).Nodup)
    (hact : ∀ f ∈ allFacts, f.superseded_by = none) :
    ∀ cluster ∈ _find_semantic_duplicate_clusters cos allFacts,
      2 ≤ cluster.length ∧
      (∀ m ∈ cluster, m ∈ allFacts ∧ m.embedding ≠ none) ∧
      (sortCluster cluster).Perm cluster ∧
      ∀ winner rest, sortCluster cluster = winner :: rest →
        (∀ m ∈ cluster, keyGE winner m = true) ∧
        lookupId (consolidateMerge cos allFacts) winner.id = some winner ∧
        ∀ m ∈ rest, lookupId (consolidateMerge cos allFacts) m.id =
          some { m with superseded_by := some winner.id } := by
  intro cluster hcl
  obtain ⟨hlen, hmem, hpairwise⟩ :=
    find_clusters_spec cos allFacts SEMANTIC_DUPLICATE_THRESHOLD hnd cluster hcl
  refine ⟨hlen, hmem, sortCluster_perm cluster, ?_⟩
  intro winner rest hsort
  have hsorted := stableSort_pairwise keyGE keyGE_total keyGE_trans cluster
  have hsorted' : (winner :: rest).Pairwise (fun x y => keyGE x y = true) := by
    rw [← hsort]
    exact hsorted
  have hmax : ∀ m ∈ cluster, keyGE winner m = true := by
    intro m hm
    have hm' : m ∈ winner :: rest := by
      rw [← hsort]
      exact (sortCluster_perm cluster).mem_iff.mpr hm
    rcases List.mem_cons.mp hm' with rfl | hmr
    · exact keyGE_refl m
    · exact (List.pairwise_cons.mp hsorted').1 m hmr
  refine ⟨hmax, ?_⟩
  exact clustersFold_characterize
    (_find_semantic_duplicate_clusters cos allFacts) allFacts
    (find_clusters_disjoint cos allFacts SEMANTIC_DUPLICATE_THRESHOLD hnd)
    (fun c hc => (find_clusters_spec cos allFacts SEMANTIC_DUPLICATE_THRESHOLD
      hnd c hc).2.2)
    (fun c hc m hm =>
      ⟨lookupId_self_of_nodup hnd
          ((find_clusters_spec cos allFacts SEMANTIC_DUPLICATE_THRESHOLD
            hnd c hc).2.1 m hm).1,
        hact m ((find_clusters_spec cos allFacts SEMANTIC_DUPLICATE_THRESHOLD
          hnd c hc).2.1 m hm).1⟩)
    cluster hcl winner rest hsort

/-- Witness for C6: two same-category embedded facts that the (constant-1)
cosine clusters together; the essential one wins and stays active, the other
is superseded by it. -/
theorem C6_witness_cluster :
    lookupId (consolidateMerge consCos [consFactA, consFactB]) 1 = some consFactA ∧
    lookupId (consolidateMerge consCos [consFactA, consFactB]) 2 =
      some { consFactB with superseded_by := some 1 } := by
  have h := C6_consolidation_cluster_merge consCos [consFactA, consFactB]
    (by decide) (by decide)
  have hsim : pairSimilar consCos SEMANTIC_DUPLICATE_THRESHOLD
      [consFactA, consFactB] 0 1 = true := by
    unfold pairSimilar
    rw [Bool.and_eq_true, decide_eq_true_iff, decide_eq_true_iff]
    refine ⟨rfl, ?_⟩
    show SEMANTIC_DUPLICATE_THRESHOLD ≤ 1
    norm_num [SEMANTIC_DUPLICATE_THRESHOLD]
  have hpar : clusterParent consCos SEMANTIC_DUPLICATE_THRESHOLD
      [consFactA, consFactB] = [1, 1] := by
    have hstep : clusterParent consCos SEMANTIC_DUPLICATE_THRESHOLD
        [consFactA, consFactB] =
        (if pairSimilar consCos SEMANTIC_DUPLICATE_THRESHOLD
            [consFactA, consFactB] 0 1 = true
         then ufUnion [0, 1] 0 1 else [0, 1]) := rfl
    rw [hstep, if_pos hsim]
    rfl
  have hc : _find_semantic_duplicate_clusters consCos [consFactA, consFactB] =
      [[consFactA, consFactB]] := by
    rw [find_clusters_def]
    have hfw : ([consFactA, consFactB]).filter
        (fun f => decide (f.embedding ≠ none)) = [consFactA, consFactB] := rfl
    rw [hfw]
    rw [if_neg (by decide : ¬ ([consFactA, consFactB].length < 2))]
    simp only [clustersOf, rootOrderOf, clusterRoot, hpar]
    rfl
  have hmemcl : [consFactA, consFactB] ∈
      _find_semantic_duplicate_clusters consCos [consFactA, consFactB] := by
    rw [hc]
    exact List.mem_cons_self _ _
  obtain ⟨_, _, _, hwin⟩ := h [consFactA, consFactB] hmemcl
  have hsort : sortCluster [consFactA, consFactB] = consFactA :: [consFactB] := rfl
  obtain ⟨hmax, hwinner, hrest⟩ := hwin consFactA [consFactB] hsort
  exact ⟨hwinner, hrest consFactB (List.mem_cons_self _ _)⟩

/-- Evaluation of the recall core on the age-filter scenario: the 30-day-old
fact is returned through the vector stage although `max_age_days = 30`. -/
theorem c4_recall_eval :
    recall_facts simEq (some c4dist) 1000 [oldVecFact] c4req false =
      [oldVecFact] := by
  have hd : decide (c4dist oldVecFact < MIN_VECTOR_DISTANCE) = true := by
    rw [decide_eq_true_iff]
    norm_num [c4dist, MIN_VECTOR_DISTANCE]
  have hvp : vectorPass c4req none c4dist oldVecFact = true := by
    unfold vectorPass
    rw [hd]
    rfl
  have hlp : lexicalPass c4req none (some 970) oldVecFact = false := by decide
  have hs1 : [oldVecFact].filter (vectorPass c4req none c4dist) = [oldVecFact] := by
    simp [List.filter_cons, hvp]
  have hs2 : [oldVecFact].filter (lexicalPass c4req none (some 970)) = [] := by
    simp [List.filter_cons, hlp]
  have key :
      (if (((stableSort (fun a b => c4dist a ≤ c4dist b)
          ([oldVecFact].filter (vectorPass c4req none c4dist))).take 5).length < 5) then
        ((stableSort (fun a b => c4dist a ≤ c4dist b)
          ([oldVecFact].filter (vectorPass c4req none c4dist))).take 5) ++
        ((stableSort (fun a b => b.1 ≤ a.1)
          (((((stableSort (fun (a b : MemoryFact) => b.created_at ≤ a.created_at)
            ([oldVecFact].filter (lexicalPass c4req none (some 970)))).take 50).filter
            (fun g => ¬ ((((stableSort (fun a b => c4dist a ≤ c4dist b)
              ([oldVecFact].filter (vectorPass c4req none c4dist))).take 5).map
              (fun g => g.id)).contains g.id))).filter
            (fun g => _allow_category (_hint_categories c4req.query) g.category)).filterMap
            (fun g =>
              if (_fuzzy_score simEq c4req.query g.content g.confidence_score).2 ≥
                  MIN_FUZZY_SIMILARITY then
                some ((_fuzzy_score simEq c4req.query g.content g.confidence_score).1, g)
              else none))).take
          (5 - ((stableSort (fun a b => c4dist a ≤ c4dist b)
            ([oldVecFact].filter (vectorPass c4req none c4dist))).take 5).length)).map
          (fun x => x.2)
      else
        ((stableSort (fun a b => c4dist a ≤ c4dist b)
          ([oldVecFact].filter (vectorPass c4req none c4dist))).take 5)) =
      [oldVecFact] := by
    rw [hs1, hs2]
    rfl
  exact key

/-- C4 counterexample: with `max_age_days = 30` and `now = 1000`, the fact
created at time 0 (far older than the cutoff 970) is still returned, because
the vector stage applies no age filter. -/
theorem C4_counterexample_old_fact_returned :
    c4req.max_age_days = some 30 ∧
    oldVecFact.created_at < 1000 - 30 ∧
    oldVecFact ∈ recall_facts simEq (some c4dist) 1000 [oldVecFact] c4req false := by
  refine ⟨rfl, by decide, ?_⟩
  rw [c4_recall_eval]
  exact List.mem_cons_self _ _

/-- C4 (amended): in a non-generic recall with a successful query embedding,
every returned fact passed either the vector-stage filters — which contain
no `created_at` cutoff — or the lexical-stage filters — which contain the
`created_at ≥ now − max_age_days` cutoff. The age filter is enforced only on
the lexically filled facts, not on the vector stage. -/
theorem C4_recall_age_filter_amended (sim : String → String → ℚ)
    (d : MemoryFact → ℚ) (now : Int) (db : List MemoryFact) (req : RecallParams) :
    ∀ f ∈ recall_facts sim (some d) now db req false,
      vectorPass req (recallCategoryFilter req false) d f = true ∨
      lexicalPass req (recallCategoryFilter req false) (recallCutoff req now) f
        = true := by
  intro f hf
  have hvecmem : ∀ g ∈ (stableSort (fun a b => d a ≤ d b)
      (db.filter (vectorPass req (recallCategoryFilter req false) d))).take req.lim,
      vectorPass req (recallCategoryFilter req false) d g = true := by
    intro g hg
    have h1 := List.mem_of_mem_take hg
    have h2 := (stableSort_perm _ _).mem_iff.mp h1
    exact List.of_mem_filter h2
  have hf2 : f ∈
      (if ((stableSort (fun a b => d a ≤ d b)
          (db.filter (vectorPass req (recallCategoryFilter req false) d))).take
            req.lim).length < req.lim then
        ((stableSort (fun a b => d a ≤ d b)
          (db.filter (vectorPass req (recallCategoryFilter req false) d))).take
            req.lim) ++
        ((stableSort (fun a b => b.1 ≤ a.1)
          (((((stableSort (fun (a b : MemoryFact) => b.created_at ≤ a.created_at)
            (db.filter (lexicalPass req (recallCategoryFilter req false)
              (recallCutoff req now)))).take
              (min (max (req.lim * 10) 50) 500)).filter
            (fun g => ¬ (((stableSort (fun a b => d a ≤ d b)
              (db.filter (vectorPass req (recallCategoryFilter req false)
                d))).take req.lim).map (fun g => g.id)).contains g.id)).filter
            (fun g => _allow_category (_hint_categories req.query) g.category)).filterMap
            (fun g =>
              if (_fuzzy_score sim req.query g.content g.confidence_score).2 ≥
                  MIN_FUZZY_SIMILARITY then
                some ((_fuzzy_score sim req.query g.content g.confidence_score).1, g)
              else none))).take
          (req.lim - ((stableSort (fun a b => d a ≤ d b)
            (db.filter (vectorPass req (recallCategoryFilter req false)
              d))).take req.lim).length)).map (fun x => x.2)
      else
        (stableSort (fun a b => d a ≤ d b)
          (db.filter (vectorPass req (recallCategoryFilter req false) d))).take
            req.lim) := hf
  split at hf2
  · rcases List.mem_append.mp hf2 with hL | hR
    · exact Or.inl (hvecmem f hL)
    · rcases List.mem_map.mp hR with ⟨pr, hpr, hprf⟩
      have hpr1 := List.mem_of_mem_take hpr
      have hpr2 := (stableSort_perm _ _).mem_iff.mp hpr1
      rcases List.mem_filterMap.mp hpr2 with ⟨g, hg, hgeq⟩
      by_cases hge : (_fuzzy_score sim req.query g.content g.confidence_score).2 ≥
          MIN_FUZZY_SIMILARITY
      · rw [if_pos hge] at hgeq
        have hpr_eq := (Option.some.inj hgeq).symm
        have hfg : f = g := by
          rw [← hprf, hpr_eq]
        subst hfg
        have h3 := List.mem_of_mem_filter hg
        have h4 := List.mem_of_mem_filter h3
        have h5 := List.mem_of_mem_take h4
        have h6 := (stableSort_perm _ _).mem_iff.mp h5
        exact Or.inr (List.of_mem_filter h6)
      · rw [if_neg hge] at hgeq
        exact absurd hgeq (by simp)
  · exact Or.inl (hvecmem f hf2)

/-- Witness for C4: the counterexample fact indeed entered through the
vector stage (left disjunct) of the amended characterization. -/
theorem C4_witness_vector_or_lexical :
    vectorPass c4req (recallCategoryFilter c4req false) c4dist oldVecFact = true ∨
    lexicalPass c4req (recallCategoryFilter c4req false) (recallCutoff c4req 1000)
      oldVecFact = true := by
  refine C4_recall_age_filter_amended simEq c4dist 1000 [oldVecFact] c4req
    oldVecFact ?_
  rw [c4_recall_eval]
  exact List.mem_cons_self _ _

end MemEngine
